import Mathlib

/-!
# Wordle solvers: the C bitmask scan, the C++ bitset scan and the C++ regex solver

A shallow embedding of `src/c/main.c`, `src/cpp/set/main.cpp` and
`src/cpp/regex/main.cpp`.

Conventions of the embedding:

* a C/C++ `char` is its byte code, a `Nat`; a string or a line is a `List Nat`
  (`codes "crane"` writes one from a literal);
* a `uint32_t` letter mask is a `Nat` below `2 ^ 32`, bit `i` standing for the
  letter with code `97 + i`; `std::bitset<26>` is read through `Nat.testBit`;
* `std::set<char>` is the strictly ascending list of its elements, which is the
  order its iteration yields;
* a loop is a recursive function over the remaining positions (or elements)
  that carries the loop's variables.
-/

namespace Wordle

/-- Byte codes of a string literal. -/
def codes (s : String) : List Nat := s.toList.map Char.toNat

/-! ## `src/c/main.c` -/

/-- The constant `WORDLE_WORD_LEN`. -/
def WORDLE_WORD_LEN : Nat := 5

/-- Transcription of `is_alpha_char`: `(c >= 'a') && (c <= 'z')`. -/
def is_alpha_char (c : Nat) : Bool := decide (97 ≤ c) && decide (c ≤ 122)

/-- The `for` loop of `main` (lines 106-126), started at position `i` with
`fuel` positions left. The result is `(is_valid_word, found_letters)`; a
`break` returns at once with `is_valid_word = false`. `95` is `'_'`. -/
def c_scan_loop (excluded_letters : Nat) (known_letters line_buffer : List Nat) :
    Nat → Nat → Nat → Bool × Nat
  | 0, _, found_letters => (true, found_letters)
  | fuel + 1, i, found_letters =>
    let current_letter := line_buffer.getD i 0
    if !is_alpha_char current_letter then (false, found_letters)
    else
      let known_letter := known_letters.getD i 0
      if known_letter ≠ 95 ∧ current_letter ≠ known_letter then (false, found_letters)
      else
        let pos := current_letter - 97
        let mask := (1 <<< pos) % 2 ^ 32
        if excluded_letters &&& mask ≠ 0 then (false, found_letters)
        else c_scan_loop excluded_letters known_letters line_buffer fuel (i + 1)
          (found_letters ||| mask)

/-- Lines 103-130 of `main`: the scan of one line whose content has exactly
`WORDLE_WORD_LEN` characters, and the test that decides whether it is printed. -/
def c_accepts (excluded_letters required_letters : Nat) (known_letters line_buffer : List Nat) :
    Bool :=
  let r := c_scan_loop excluded_letters known_letters line_buffer WORDLE_WORD_LEN 0 0
  r.1 && decide (r.2 &&& required_letters = required_letters)

/-! ## `src/cpp/set/main.cpp` -/

/-- The C-locale `std::isalpha` on a byte code. -/
def isalpha (c : Nat) : Bool :=
  (decide (65 ≤ c) && decide (c ≤ 90)) || (decide (97 ≤ c) && decide (c ≤ 122))

/-- The C-locale `tolower` on a byte code. -/
def tolower (c : Nat) : Nat := if 65 ≤ c ∧ c ≤ 90 then c + 32 else c

/-- The `for` loop of the bitset program (lines 155-174), started at position
`i` with `fuel` positions left; the result is `(is_valid_word, numRequiredLetters)`,
or `none` when an access throws `std::out_of_range`: `line.at(i)` or
`knownPositions.at(i)` beyond the end, or `std::bitset::test` at an index of 26
or more. `currentPos` is `currentLetter - 'a'` in `std::size_t`; `42` is `'*'`.
A `std::bitset<26>` is a mask read with `Nat.testBit`. -/
def set_scan_loop (excludedLetterSet requiredLetterSet : Nat) (knownPositions line : List Nat) :
    Nat → Nat → Nat → Option (Bool × Nat)
  | 0, _, numRequiredLetters => some (true, numRequiredLetters)
  | fuel + 1, i, numRequiredLetters =>
    match line.get? i with
    | none => none
    | some currentLetter =>
      if !isalpha currentLetter then some (false, numRequiredLetters)
      else
        match knownPositions.get? i with
        | none => none
        | some knownLetter =>
          if knownLetter ≠ 42 ∧ currentLetter ≠ knownLetter then some (false, numRequiredLetters)
          else
            let currentPos := (currentLetter + 2 ^ 64 - 97) % 2 ^ 64
            if currentPos ≥ 26 then none
            else if excludedLetterSet.testBit currentPos then some (false, numRequiredLetters)
            else set_scan_loop excludedLetterSet requiredLetterSet knownPositions line fuel
              (i + 1)
              (if requiredLetterSet.testBit currentPos then numRequiredLetters + 1
                else numRequiredLetters)

/-- The value of `std::bitset<26>::count`: the number of set bits among the 26. -/
def bitset_count (s : Nat) : Nat := ((List.range 26).filter (fun i => s.testBit i)).length

/-- The body of the `while (std::getline(wordFile, line))` loop of the bitset
program (lines 148-178) for one line of the file: `some true` when the line is
printed, `some false` when it is skipped, `none` when an exception is thrown. -/
def set_accepts (excludedLetterSet requiredLetterSet : Nat) (knownPositions line : List Nat) :
    Option Bool :=
  let line := line.map tolower
  if line.length ≠ 5 then some false
  else
    (set_scan_loop excludedLetterSet requiredLetterSet knownPositions line 5 0 0).map fun r =>
      r.1 && decide (r.2 = bitset_count requiredLetterSet)

/-- The character `c` is a letter of the mask: bit `c - 'a'` is set. -/
def in_mask (mask c : Nat) : Prop := 97 ≤ c ∧ mask.testBit (c - 97) = true

/-- What the C loop checks at position `i`: the character is a lowercase
letter, it equals the pinned letter when the position is pinned, and its bit
is not in the excluded mask. -/
def c_pos_ok (excluded : Nat) (known line : List Nat) (i : Nat) : Prop :=
  is_alpha_char (line.getD i 0) = true ∧
  (known.getD i 0 ≠ 95 → line.getD i 0 = known.getD i 0) ∧
  excluded.testBit (line.getD i 0 - 97) = false

/-! ## `src/cpp/regex/main.cpp`: arguments and the include filter -/

/-- The constant `MIN_WORD_LENGTH`. -/
def MIN_WORD_LENGTH : Nat := 4

/-- The constant `MAX_WORD_LENGTH`. -/
def MAX_WORD_LENGTH : Nat := 11

/-- The loop `while (getline(ss, token, delim)) result.push_back(token)` of
`split`, over the characters still in the stream, with the token read so far.
At the end of the stream `getline` succeeds only if it has extracted a
character, so an unfinished empty token is not pushed. -/
def split_loop (delim : Nat) : List Nat → List Nat → List (List Nat)
  | [], token => if token = [] then [] else [token]
  | c :: cs, token =>
    if c = delim then token :: split_loop delim cs []
    else split_loop delim cs (token ++ [c])

/-- Transcription of `split(s, delim)`. -/
def split (s : List Nat) (delim : Nat) : List (List Nat) := split_loop delim s []

/-- The operation `std::set<char>::insert`, on the ascending list of the elements. -/
def set_insert (c : Nat) : List Nat → List Nat
  | [] => [c]
  | x :: xs => if c < x then c :: x :: xs else if c = x then x :: xs else x :: set_insert c xs

/-- The body of the loops at lines 54-62 and 163-171: a token that is exactly
one alphabetic character is inserted into the set, any other token is skipped. -/
def letter_step (letters : List Nat) (arg : List Nat) : List Nat :=
  if arg.length ≠ 1 then letters
  else
    let c := arg.getD 0 0
    if isalpha c then set_insert c letters else letters

/-- The set built from a comma-separated argument (lines 52-62 for `-include`,
lines 161-171 for `-exclude`; `44` is `','`). -/
def letters_of_arg (arg : List Nat) : List Nat := (split arg 44).foldl letter_step []

/-- The inner loop of `filterWordsWithoutIncludedLetters` (lines 70-76): the
flag `wordIsValid` after the loop over the included letters that are left,
`word.find(c) == npos` being `c ∉ word`. -/
def wordIsValid (word : List Nat) : List Nat → Bool
  | [] => true
  | c :: cs => if c ∉ word then false else wordIsValid word cs

/-- Transcription of `filterWordsWithoutIncludedLetters`. -/
def filterWordsWithoutIncludedLetters (wordList : List (List Nat)) (wordLength : Nat)
    (includeArg : List Nat) : List (List Nat) :=
  if wordList = [] ∨ wordLength < MIN_WORD_LENGTH ∨ includeArg = [] then wordList
  else
    let includedLetters := letters_of_arg includeArg
    if includedLetters = [] ∨ includedLetters.length > wordLength then wordList
    else
      let filteredWords := wordList.foldl
        (fun filteredWords word =>
          if wordIsValid word includedLetters then filteredWords ++ [word] else filteredWords) []
      if filteredWords.length < wordList.length then filteredWords else wordList

/-! ## `src/cpp/regex/main.cpp`: the letter group -/

/-- The loop of lines 187-207 over the elements of `excludedLetterSet` that are
left, carrying `prev_letter`, `consec_letter_count` and `letterGroup`; the
result is the final `letterGroup`. `c - prev_letter` is computed in `int`;
`45` is `'-'`. -/
def group_loop (last_letter : Nat) : Nat → Nat → List Nat → List Nat → List Nat
  | _, _, letterGroup, [] => letterGroup
  | prev_letter, consec_letter_count, letterGroup, c :: cs =>
    if (c : Int) - (prev_letter : Int) = 1 then
      let consec_letter_count := consec_letter_count + 1
      let letterGroup :=
        if c = last_letter then
          (if consec_letter_count > 1 then letterGroup ++ [45] else letterGroup) ++ [c]
        else letterGroup
      group_loop last_letter c consec_letter_count letterGroup cs
    else
      let letterGroup :=
        if consec_letter_count > 0 then
          (if consec_letter_count > 1 then letterGroup ++ [45] else letterGroup) ++ [prev_letter]
        else letterGroup
      let letterGroup := letterGroup ++ [c]
      group_loop last_letter c 0 letterGroup cs

/-- Lines 179-209: the string `letterGroup` built from `excludedLetterSet`
(`*begin()` is the head of the list and `*rbegin()` its last element). -/
def letterGroup (excludedLetterSet : List Nat) : List Nat :=
  (if excludedLetterSet = [] then codes "[" ++ codes "a-z"
   else
    group_loop (excludedLetterSet.getLastD 0) (excludedLetterSet.headD 0) 0
      (codes "[" ++ [94]) excludedLetterSet) ++ codes "]"

/-- The text that `letterGroup` holds between `[^` and `]`, for a set that is
not empty. -/
def group_body (excludedLetterSet : List Nat) : List Nat :=
  group_loop (excludedLetterSet.getLastD 0) (excludedLetterSet.headD 0) 0 [] excludedLetterSet

/-- A token of a bracket expression: one character or a range `lo-hi`. -/
inductive ClassItem where
  | single (c : Nat)
  | range (lo hi : Nat)
  deriving DecidableEq, Repr

/-- The text between the brackets read from left to right as class items: an
atom followed by `-` and an atom is a range, any other character is a single
one. The result is `none` when a range is out of order (`std::regex` throws
`regex_error`). -/
def class_items : List Nat → Option (List ClassItem)
  | [] => some []
  | [a] => some [ClassItem.single a]
  | [a, b] => some [ClassItem.single a, ClassItem.single b]
  | a :: b :: c :: rest =>
    if b = 45 then
      if a ≤ c then (class_items rest).map (fun items => ClassItem.range a c :: items)
      else none
    else (class_items (b :: c :: rest)).map (fun items => ClassItem.single a :: items)

/-- The characters a class item stands for. -/
def ClassItem.covers : ClassItem → Nat → Bool
  | ClassItem.single a, c => decide (c = a)
  | ClassItem.range lo hi, c => decide (lo ≤ c) && decide (c ≤ hi)

/-- The first character of a class item. -/
def ClassItem.lo : ClassItem → Nat
  | ClassItem.single a => a
  | ClassItem.range lo _ => lo

/-- The last character of a class item. -/
def ClassItem.hi : ClassItem → Nat
  | ClassItem.single a => a
  | ClassItem.range _ hi => hi

/-- The maximal runs of consecutive codes of an ascending list, as pairs
`(lo, hi)`, the run that is open being `lo..hi`. -/
def runs_from : Nat → Nat → List Nat → List (Nat × Nat)
  | lo, hi, [] => [(lo, hi)]
  | lo, hi, c :: cs => if c = hi + 1 then runs_from lo c cs else (lo, hi) :: runs_from c c cs

/-- The maximal runs of consecutive codes of an ascending list. -/
def runs : List Nat → List (Nat × Nat)
  | [] => []
  | c :: cs => runs_from c c cs

/-- The text the program writes for one maximal run: the letter alone for a run
of one, both letters for a run of two, and `lo-hi` for a longer run. -/
def run_text (r : Nat × Nat) : List Nat :=
  if r.2 = r.1 then [r.1] else if r.2 = r.1 + 1 then [r.1, r.2] else [r.1, 45, r.2]

/-- The text that closes a run whose first letter is already written: nothing
after a run of one, the last letter after a run of two, `-` and the last letter
after a longer run (`k` is the distance from the first letter to the last). -/
def pending_close (k hi : Nat) : List Nat :=
  if k = 0 then [] else if k = 1 then [hi] else [45, hi]

/-- The text still to be written for a list of runs of which the first is open
(its first letter is written already). -/
def pending_text : List (Nat × Nat) → List Nat
  | [] => []
  | r :: rs => pending_close (r.2 - r.1) r.2 ++ (rs.map run_text).flatten

/-- The codes `lo..hi` form a maximal run of consecutive members of `S`: all
of them are in `S`, and neither the code before `lo` nor the code after `hi` is. -/
def is_maximal_run (S : List Nat) (lo hi : Nat) : Prop :=
  lo ≤ hi ∧ (∀ x, lo ≤ x → x ≤ hi → x ∈ S) ∧ (∀ x, x + 1 = lo → x ∉ S) ∧ hi + 1 ∉ S

/-- Two runs in order: both are well formed and at least one code that is in
neither lies between them. -/
def run_before (r s : Nat × Nat) : Prop := r.1 ≤ r.2 ∧ r.2 + 1 < s.1 ∧ s.1 ≤ s.2

/-- The order of runs is transitive. -/
instance run_before_trans : IsTrans (Nat × Nat) run_before where
  trans := by
    intro a b c h1 h2
    unfold run_before at *
    omega

/-- The class items that the text of a run reads as. -/
def run_items (r : Nat × Nat) : List ClassItem :=
  if r.2 = r.1 then [ClassItem.single r.1]
  else if r.2 = r.1 + 1 then [ClassItem.single r.1, ClassItem.single r.2]
  else [ClassItem.range r.1 r.2]

/-! ## `src/cpp/regex/main.cpp`: the pattern -/

/-- The function `std::to_string` on an unsigned value: its decimal digits. -/
def to_string (n : Nat) : List Nat := (Nat.toDigits 10 n).map Char.toNat

/-- The text `"{" + std::to_string(n) + "}"`. -/
def quantifier_text (n : Nat) : List Nat := codes "\x7b" ++ to_string n ++ codes "\x7d"

/-- The loop of lines 244-262 over the positions that are left: `i` is the
index, `end_` is `knownPositions.size() - 1`, and the loop carries
`idx_last_unknown`, `consec_unknown_count` and `regexString`. `prev_i` is
`i - 1` in `std::size_t` (it wraps at `i = 0`); `42` is `'*'`. -/
def pattern_loop (letterGroup : List Nat) (end_ : Nat) :
    List Nat → Nat → Nat → Nat → List Nat → List Nat
  | [], _, _, _, regexString => regexString
  | c :: rest, i, idx_last_unknown, consec_unknown_count, regexString =>
    let prev_i := (i + 2 ^ 64 - 1) % 2 ^ 64
    if c = 42 then
      let idx_last_unknown := i
      let consec_unknown_count := consec_unknown_count + 1
      let regexString :=
        if consec_unknown_count ≤ 1 then regexString ++ letterGroup
        else if i = end_ then regexString ++ quantifier_text consec_unknown_count
        else regexString
      pattern_loop letterGroup end_ rest (i + 1) idx_last_unknown consec_unknown_count regexString
    else
      let regexString :=
        if idx_last_unknown = prev_i ∧ consec_unknown_count > 1 then
          regexString ++ quantifier_text consec_unknown_count
        else regexString
      let regexString := regexString ++ [c]
      pattern_loop letterGroup end_ rest (i + 1) idx_last_unknown 0 regexString

/-- Lines 237-264: the pattern `regexString` built from the letter group, the
word length, `knownPositions` and `numKnownPositions`. -/
def build_regexString (letterGroup : List Nat) (wordLength : Nat) (knownPositions : List Nat)
    (numKnownPositions : Nat) : List Nat :=
  let regexString :=
    if numKnownPositions = 0 then letterGroup ++ quantifier_text wordLength
    else pattern_loop letterGroup (knownPositions.length - 1) knownPositions 0 0 0 []
  codes "^" ++ regexString ++ codes "$"

/-- A block of positions: one pinned position with its letter, or a maximal run
of `n` consecutive positions that are not pinned. -/
inductive Block where
  | pinned (c : Nat)
  | unpinned (n : Nat)
  deriving DecidableEq, Repr

/-- The blocks of a known-position array, in position order: each pinned
position is a block, each maximal run of `'*'` is a block. -/
def blocks : List Nat → List Block
  | [] => []
  | c :: cs =>
    if c = 42 then
      match blocks cs with
      | Block.unpinned n :: bs => Block.unpinned (n + 1) :: bs
      | bs => Block.unpinned 1 :: bs
    else Block.pinned c :: blocks cs

/-- The positions a block stands for. -/
def Block.positions : Block → List Nat
  | Block.pinned c => [c]
  | Block.unpinned n => List.replicate n 42

/-- The number of positions of a block. -/
def Block.span : Block → Nat
  | Block.pinned _ => 1
  | Block.unpinned n => n

/-- The quantifier of a run of `n` positions: `{n}` when `n ≥ 2`, nothing otherwise. -/
def run_quantifier (n : Nat) : List Nat := if n ≥ 2 then quantifier_text n else []

/-- The item of the pattern for a block: the pinned letter, or the letter group
once, followed by `{n}` exactly when `n ≥ 2`. -/
def block_text (letterGroup : List Nat) : Block → List Nat
  | Block.pinned c => [c]
  | Block.unpinned n => letterGroup ++ run_quantifier n

/-- Two blocks next to each other are not both runs of unpinned positions. -/
def blocks_separated : List Block → Prop
  | Block.unpinned _ :: Block.unpinned _ :: _ => False
  | _ :: bs => blocks_separated bs
  | [] => True

/-- The text the loop still writes when `k` unpinned positions have just been
read and the positions `rest` are left. -/
def tail_text (letterGroup : List Nat) : Nat → List Nat → List Nat
  | k, [] => run_quantifier k
  | k, c :: rest =>
    if c = 42 then (if k = 0 then letterGroup else []) ++ tail_text letterGroup (k + 1) rest
    else run_quantifier k ++ [c] ++ tail_text letterGroup 0 rest

/-- The text for a list of blocks when `k` unpinned positions right before it
belong to its first run. -/
def open_text (letterGroup : List Nat) : Nat → List Block → List Nat
  | k, Block.unpinned n :: bs =>
    (if k = 0 then letterGroup else []) ++ run_quantifier (k + n) ++
      (bs.map (block_text letterGroup)).flatten
  | k, bs => run_quantifier k ++ (bs.map (block_text letterGroup)).flatten

/-! ## `src/cpp/regex/main.cpp`: the known positions -/

/-- Transcription of the digit test `[0-9]` of `\d`. -/
def is_digit (c : Nat) : Bool := decide (48 ≤ c) && decide (c ≤ 57)

/-- The match of one token against `posRegex`, `(\d+)([a-z])`, by
`std::regex_match`: the token is one or more digits followed by one lowercase
letter; the result is the two captured groups. -/
def pos_match (arg : List Nat) : Option (List Nat × Nat) :=
  match arg.getLast? with
  | none => none
  | some c =>
    if is_alpha_char c ∧ arg.dropLast ≠ [] ∧ arg.dropLast.all is_digit then
      some (arg.dropLast, c)
    else none

/-- The value `std::stoul` reads from a string of decimal digits. -/
def stoul (digits : List Nat) : Nat := digits.foldl (fun v d => 10 * v + (d - 48)) 0

/-- The loop of lines 222-232 over the tokens that are left, carrying
`knownPositions` and `numKnownPositions`. `std::stoul` throws
`std::out_of_range` above `2 ^ 64 - 1`, which nothing catches: the result is
then `none`. The value is stored in an `unsigned int`. (`numKnownPositions`
cannot wrap: a command line does not hold `2 ^ 32` tokens.) -/
def known_loop (wordLength : Nat) : List (List Nat) → List Nat → Nat → Option (List Nat × Nat)
  | [], knownPositions, numKnownPositions => some (knownPositions, numKnownPositions)
  | arg :: args, knownPositions, numKnownPositions =>
    match pos_match arg with
    | none => known_loop wordLength args knownPositions numKnownPositions
    | some (digits, letter) =>
      if stoul digits ≥ 2 ^ 64 then none
      else
        let position := stoul digits % 2 ^ 32
        if position < 1 ∨ position > wordLength then
          known_loop wordLength args knownPositions numKnownPositions
        else
          known_loop wordLength args (knownPositions.set (position - 1) letter)
            (numKnownPositions + 1)

/-- Lines 219-232: `knownPositions` and `numKnownPositions` from the `-known`
argument. -/
def known_positions (wordLength : Nat) (knownArg : List Nat) : Option (List Nat × Nat) :=
  known_loop wordLength (split knownArg 44) (List.replicate wordLength 42) 0

/-! ## `std::regex` on the fragment of patterns the program builds

The program hands `regexString` to `std::regex` (ECMAScript grammar) and calls
`std::regex_match`. The library is modelled on the fragment that holds the
patterns of the program: the assertions `^` and `$`, a literal character, a
bracket expression of single characters and ranges with an optional leading
`^`, and the quantifier `{n}`. A pattern outside the fragment does not compile
in the model. -/

/-- An atom of a pattern. -/
inductive Atom where
  | char (c : Nat)
  | cls (negated : Bool) (items : List ClassItem)
  | bol
  | eol
  deriving DecidableEq, Repr

/-- An atom with its repeat count (`1` without a quantifier). -/
structure Piece where
  atom : Atom
  count : Nat
  deriving DecidableEq, Repr

/-- Where the reader of a pattern is: outside brackets and braces (and whether
the last atom may take a quantifier), right after `[`, inside a bracket
expression, or inside braces. -/
inductive Mode where
  | top (quantifiable : Bool)
  | cls_start
  | cls_body (negated : Bool) (body : List Nat)
  | brace (digits : List Nat)
  deriving DecidableEq, Repr

/-- The state of the reader: the pieces read so far, the last one first, and the mode. -/
structure PState where
  rev_pieces : List Piece
  mode : Mode
  deriving DecidableEq, Repr

/-- Characters with a meaning of their own outside brackets that the fragment
does not cover: `\ . * + ? ( ) | ] }`. -/
def unsupported_top (c : Nat) : Bool :=
  c = 92 || c = 46 || c = 42 || c = 43 || c = 63 || c = 40 || c = 41 || c = 124 || c = 93 ||
    c = 125

/-- One character inside a bracket expression: `]` closes it, `\` and `[` are
outside the fragment, any other character joins the body. -/
def cls_body_step (st : PState) (negated : Bool) (body : List Nat) (c : Nat) : Option PState :=
  if c = 93 then
    (class_items body).map fun items =>
      { rev_pieces := ⟨Atom.cls negated items, 1⟩ :: st.rev_pieces, mode := Mode.top true }
  else if c = 92 ∨ c = 91 then none
  else some { st with mode := Mode.cls_body negated (body ++ [c]) }

/-- One character of the pattern. -/
def parse_char (st : PState) (c : Nat) : Option PState :=
  match st.mode with
  | Mode.top quantifiable =>
    if c = 91 then some { st with mode := Mode.cls_start }
    else if c = 123 then
      if quantifiable then some { st with mode := Mode.brace [] } else none
    else if c = 94 then
      some { rev_pieces := ⟨Atom.bol, 1⟩ :: st.rev_pieces, mode := Mode.top false }
    else if c = 36 then
      some { rev_pieces := ⟨Atom.eol, 1⟩ :: st.rev_pieces, mode := Mode.top false }
    else if unsupported_top c then none
    else some { rev_pieces := ⟨Atom.char c, 1⟩ :: st.rev_pieces, mode := Mode.top true }
  | Mode.cls_start =>
    if c = 94 then some { st with mode := Mode.cls_body true [] }
    else cls_body_step st false [] c
  | Mode.cls_body negated body => cls_body_step st negated body c
  | Mode.brace digits =>
    if is_digit c then some { st with mode := Mode.brace (digits ++ [c]) }
    else if c = 125 ∧ digits ≠ [] then
      match st.rev_pieces with
      | p :: ps => some { rev_pieces := { p with count := stoul digits } :: ps,
                          mode := Mode.top false }
      | [] => none
    else none

/-- The reader over a text, from a state. -/
def parse_from (st : Option PState) (text : List Nat) : Option PState :=
  text.foldl (fun st c => st.bind fun st => parse_char st c) st

/-- The construction `std::regex(pattern)`: the pieces of the pattern, or `none`
when it does not compile. -/
def regex_compile (pattern : List Nat) : Option (List Piece) :=
  match parse_from (some ⟨[], Mode.top false⟩) pattern with
  | some ⟨rev_pieces, Mode.top _⟩ => some rev_pieces.reverse
  | _ => none

/-- The characters an atom matches. -/
def Atom.accepts : Atom → Nat → Bool
  | Atom.char a, c => decide (c = a)
  | Atom.cls negated items, c => (items.any fun t => t.covers c) != negated
  | Atom.bol, _ => false
  | Atom.eol, _ => false

/-- The match of a list of pieces against all of what is left of the input,
`pos` characters having been consumed. -/
def match_pieces : List Piece → Nat → List Nat → Bool
  | [], _, s => s.isEmpty
  | p :: ps, pos, s =>
    match p.atom with
    | Atom.bol => decide (pos = 0) && match_pieces ps pos s
    | Atom.eol => s.isEmpty && match_pieces ps pos s
    | a =>
      decide (p.count ≤ s.length) && (s.take p.count).all a.accepts &&
        match_pieces ps (pos + p.count) (s.drop p.count)

/-- The call `std::regex_match(line, regex)` on a compiled pattern. -/
def regex_match (line : List Nat) (regex : List Piece) : Bool := match_pieces regex 0 line

/-! ## `src/cpp/regex/main.cpp`: `main` -/

/-- The pattern the program compiles, from the three parsed inputs (lines 161-264). -/
def regexString (excludedLetterSet : List Nat) (wordLength : Nat) (knownPositions : List Nat)
    (numKnownPositions : Nat) : List Nat :=
  build_regexString (letterGroup excludedLetterSet) wordLength knownPositions numKnownPositions

/-- Lines 280-288: the lines of the word file, lower-cased, that have the word
length and match the compiled pattern, in file order. -/
def matching_lines (wordLength : Nat) (wordleRegex : List Piece) (wordFile : List (List Nat)) :
    List (List Nat) :=
  (wordFile.map fun line => line.map tolower).filter fun line =>
    decide (line.length = wordLength) && regex_match line wordleRegex

/-- The function `main` from line 141 on, given the parameters of the command
line and the lines of the word file. The result is `none` when the program
ends without a result list (`EXIT_FAILURE`, or an exception nothing catches),
and otherwise the final `wordList`, which is what it prints. -/
def regex_main (wordLength : Nat) (wordFilePathParam excludeArg includeArg knownArg : List Nat)
    (wordFile : List (List Nat)) : Option (List (List Nat)) :=
  if wordLength < MIN_WORD_LENGTH ∨ wordLength > MAX_WORD_LENGTH then none
  else if wordLength ≠ 5 ∧ wordFilePathParam ≠ [] then none
  else if excludeArg = [] ∧ includeArg = [] ∧ knownArg = [] then none
  else
    let excludedLetterSet := letters_of_arg excludeArg
    if excludedLetterSet.length ≥ 26 then none
    else
      match known_positions wordLength knownArg with
      | none => none
      | some (knownPositions, numKnownPositions) =>
        match regex_compile
          (regexString excludedLetterSet wordLength knownPositions numKnownPositions) with
        | none => none
        | some wordleRegex =>
          some (filterWordsWithoutIncludedLetters (matching_lines wordLength wordleRegex wordFile)
            wordLength includeArg)

/-! ## What the pattern of the program means -/

/-- The class items of the letter group: `a-z` when nothing is excluded, the
items of the runs of the excluded set otherwise. -/
def group_items (excludedLetterSet : List Nat) : List ClassItem :=
  if excludedLetterSet = [] then [ClassItem.range 97 122]
  else ((runs excludedLetterSet).map run_items).flatten

/-- The atom the letter group compiles to: a negated class exactly when the
excluded set is not empty. -/
def group_atom (excludedLetterSet : List Nat) : Atom :=
  Atom.cls (decide (excludedLetterSet ≠ [])) (group_items excludedLetterSet)

/-- The characters the letter group matches: with nothing excluded the
lowercase letters, otherwise every character that is not an excluded letter. -/
def group_ok (excludedLetterSet : List Nat) (c : Nat) : Bool :=
  if excludedLetterSet = [] then is_alpha_char c else decide (c ∉ excludedLetterSet)

/-- The piece a block compiles to. -/
def block_piece (excludedLetterSet : List Nat) : Block → Piece
  | Block.pinned c => ⟨Atom.char c, 1⟩
  | Block.unpinned n => ⟨group_atom excludedLetterSet, n⟩

/-- What the pattern asks of the character `c` at a position whose entry in
`knownPositions` is `k`. -/
def pos_ok (excludedLetterSet : List Nat) (k c : Nat) : Bool :=
  if k = 42 then group_ok excludedLetterSet c else decide (c = k)

/-- A line against a known-position array, position by position: the lengths
agree and every position is as the pattern asks. -/
def matches_known (excludedLetterSet : List Nat) : List Nat → List Nat → Bool
  | [], [] => true
  | k :: ks, c :: cs => pos_ok excludedLetterSet k c && matches_known excludedLetterSet ks cs
  | _, _ => false

/-! ## `src/c/main.c`: `get_population_count` and the validation of the sets -/

/-- The loop of `get_population_count` (lines 154-157) with `fuel` iterations
allowed: `none` when the fuel runs out before `num` is `0`. The guard
`num != 0` keeps `num - 1` from wrapping, and `num & (num - 1)` stays within
32 bits. -/
def population_count_loop : Nat → Nat → Nat → Option Nat
  | 0, num, count => if num ≠ 0 then none else some count
  | fuel + 1, num, count =>
    if num ≠ 0 then population_count_loop fuel (num &&& (num - 1)) (count + 1)
    else some count

/-- Transcription of `get_population_count`, with fuel for 32 iterations. -/
def get_population_count (num : Nat) : Option Nat := population_count_loop 32 num 0

/-- The number of `1` bits among the `w` lowest bits of `n`. -/
def ones (w n : Nat) : Nat := ((List.range w).filter fun i => n.testBit i).length

/-- Lines 34-52 of the C `main`, on the two parsed masks: `some true` when one
of the three tests ends the program with `EXIT_FAILURE`, `some false` when all
three pass. -/
def c_validation_fails (excluded_letters required_letters : Nat) : Option Bool :=
  match get_population_count excluded_letters with
  | none => none
  | some n_excluded =>
    if n_excluded ≥ 26 then some true
    else
      match get_population_count required_letters with
      | none => none
      | some n_required =>
        if n_required > WORDLE_WORD_LEN then some true
        else if excluded_letters &&& required_letters ≠ 0 then some true
        else some false

/-- Lines 96-111 of the bitset `main`, on the two parsed sets: `true` when one
of the three tests ends the program with `EXIT_FAILURE`. -/
def set_validation_fails (excludedLetterSet requiredLetterSet : Nat) : Bool :=
  if bitset_count excludedLetterSet ≥ 26 then true
  else if bitset_count requiredLetterSet > 5 then true
  else if excludedLetterSet &&& requiredLetterSet ≠ 0 then true
  else false

/-- The condition under which the validation of the sets fails: the excluded set
holds all 26 letters, or the required set holds more than 5 letters, or the two
sets share a letter. -/
def sets_rejected (excluded required : Nat) : Prop :=
  (∀ c, 97 ≤ c → c ≤ 122 → in_mask excluded c) ∨ 5 < bitset_count required ∨
    ∃ c, in_mask excluded c ∧ in_mask required c

/-! ## `src/cpp/set/main.cpp`: the arguments -/

/-- The body of the loop of `get_letters_from_param` of the bitset program
(lines 46-55), on the set built so far (`none` once an exception is thrown):
`pos` is `c - 'a'` in `std::size_t`, and `std::bitset::set` throws
`std::out_of_range` at an index of 26 or more. -/
def set_letter_step (letter_set : Option Nat) (letter : List Nat) : Option Nat :=
  letter_set.bind fun letter_set =>
    if letter.length ≠ 1 then some letter_set
    else
      let c := letter.getD 0 0
      if isalpha c then
        let pos := (c + 2 ^ 64 - 97) % 2 ^ 64
        if pos ≥ 26 then none else some (letter_set ||| 2 ^ pos)
      else some letter_set

/-- Transcription of `get_letters_from_param` of the bitset program: the set,
or `none` when `std::out_of_range` is thrown. -/
def set_get_letters_from_param (param : List Nat) : Option Nat :=
  (split param 44).foldl set_letter_step (some 0)

/-- The body of the loop over the `-known` tokens of the bitset program (lines
121-133). The index `i` is between 0 and 4, so `knownPositions.at(i)` does not
throw. `49` is `'1'` and `53` is `'5'`. -/
def set_known_step (knownPositions : List Nat) (arg : List Nat) : List Nat :=
  if arg.length ≠ 2 then knownPositions
  else
    let position := arg.getD 0 0
    if !is_digit position ∨ position < 49 ∨ position > 53 then knownPositions
    else
      let letter := arg.getD 1 0
      if !isalpha letter then knownPositions
      else
        let i := (position - 48) - 1
        knownPositions.set i letter

/-- The loop of lines 120-134 over a list of tokens, from the array filled
with `'*'`. -/
def set_known_loop (knownArgs : List (List Nat)) : List Nat :=
  knownArgs.foldl set_known_step (List.replicate 5 42)

/-- Lines 116-134: `knownPositions` from the `-known` argument. -/
def set_known_positions (knownArg : List Nat) : List Nat := set_known_loop (split knownArg 44)

/-- A well-formed token for the position digit `d`: the digit `d` followed by
one alphabetic character. -/
def known_token (d : Nat) (arg : List Nat) : Bool :=
  decide (arg.length = 2) && decide (arg.getD 0 0 = 48 + d) && isalpha (arg.getD 1 0)

/-- The letter of the last well-formed token for the digit `d` in a list of
tokens, and `'*'` when there is none. -/
def last_known_letter (d : Nat) (knownArgs : List (List Nat)) : Nat :=
  match (knownArgs.filter (known_token d)).getLast? with
  | some arg => arg.getD 1 0
  | none => 42

/-! ## `src/c/main.c`: the arguments, the read loop and `main` -/

/-- The constant `LINE_BUFFER_LEN`. -/
def LINE_BUFFER_LEN : Nat := 8

/-- Transcription of `is_digit_char`: `(c >= '0') && (c <= '9')`. -/
def is_digit_char (c : Nat) : Bool := decide (48 ≤ c) && decide (c ≤ 57)

/-- The parts of a C string between the delimiters, the last part being what
follows the last delimiter: the texts between `param` and `p_comma` that the
`strchr` loops of `main` and `get_letters_from_param` walk, and the rest that
they measure with `strlen`. -/
def split_all (delim : Nat) : List Nat → List (List Nat)
  | [] => [[]]
  | c :: cs =>
    if c = delim then [] :: split_all delim cs
    else
      match split_all delim cs with
      | [] => [[c]]
      | t :: ts => (c :: t) :: ts

/-- Transcription of `alpha_to_mask`: `none` when it calls `exit`. -/
def alpha_to_mask (c : Nat) : Option Nat :=
  if !is_alpha_char c then none else some ((1 <<< (c - 97)) % 2 ^ 32)

/-- The body of `get_letters_from_param` of the C program over the tokens that
are left (lines 212-228): each token must be one character, which
`alpha_to_mask` turns into a bit; `none` when the program calls `exit`. -/
def c_letters_loop : List (List Nat) → Nat → Option Nat
  | [], letter_set => some letter_set
  | token :: rest, letter_set =>
    if token.length ≠ 1 then none
    else
      match alpha_to_mask (token.getD 0 0) with
      | none => none
      | some mask => c_letters_loop rest (letter_set ||| mask)

/-- Transcription of `get_letters_from_param` of the C program; the parameter is
`none` when `get_param_index` found none (`i_param <= 1`). -/
def c_get_letters_from_param (param : Option (List Nat)) : Option Nat :=
  match param with
  | none => some 0
  | some param => c_letters_loop (split_all 44 param) 0

/-- Transcription of `get_known_char`: the array after the write, or `none`
when the function calls `exit`. -/
def get_known_char (known_letters : List Nat) (param : List Nat) : Option (List Nat) :=
  if !is_digit_char (param.getD 0 0) ∨ !is_alpha_char (param.getD 1 0) then none
  else
    let i := param.getD 0 0 - 48
    if i < 1 ∨ i > WORDLE_WORD_LEN then none
    else some (known_letters.set (i - 1) (param.getD 1 0))

/-- Lines 61-86 of the C `main` over the tokens that are left, carrying
`known_letters` and `num_known`: at most five tokens, each of two characters;
`none` when the program ends with `EXIT_FAILURE`. -/
def c_known_loop : List (List Nat) → List Nat → Nat → Option (List Nat)
  | [], known_letters, _ => some known_letters
  | token :: rest, known_letters, num_known =>
    if num_known > 4 then none
    else if token.length ≠ 2 then none
    else
      match get_known_char known_letters token with
      | none => none
      | some known_letters => c_known_loop rest known_letters (num_known + 1)

/-- Lines 54-87 of the C `main`: `known_letters` from the `-known` parameter
(`none` when there is none: `i_known <= 1`). -/
def c_known_letters (param : Option (List Nat)) : Option (List Nat) :=
  match param with
  | none => some (codes "_____")
  | some param => c_known_loop (split_all 44 param) (codes "_____") 0

/-- The successive results of `fgets(line_buffer, LINE_BUFFER_LEN, wordfile)`
over the bytes of the file that are left, `line_buffer` holding what the
current call has read: a call ends after a newline, after
`LINE_BUFFER_LEN - 1` characters, or at the end of the file, where a call that
has read nothing returns `NULL` and ends the loop. `10` is the newline. -/
def fgets_loop : List Nat → List Nat → List (List Nat)
  | [], line_buffer => if line_buffer = [] then [] else [line_buffer]
  | c :: cs, line_buffer =>
    if c = 10 ∨ (line_buffer ++ [c]).length = LINE_BUFFER_LEN - 1 then
      (line_buffer ++ [c]) :: fgets_loop cs []
    else fgets_loop cs (line_buffer ++ [c])

/-- The offset of `strchr(s, c)` in a buffer that `fgets` filled: the index of
the first `c` before any NUL byte, `none` for `NULL`. -/
def strchr_index : List Nat → Nat → Option Nat
  | [], _ => none
  | x :: xs, c =>
    if x = c then some 0
    else if x = 0 then none
    else (strchr_index xs c).map (· + 1)

/-- The body of the `while (fgets ...)` loop of the C `main` (lines 98-130)
over the buffers that are left; the result is what `fputs` prints. A buffer
without newline gives `NULL` for `p_space`, and the difference with
`line_buffer` is then taken to differ from 5. -/
def c_read_loop (excluded_letters required_letters : Nat) (known_letters : List Nat) :
    List (List Nat) → List (List Nat)
  | [] => []
  | line_buffer :: rest =>
    if strchr_index line_buffer 10 ≠ some WORDLE_WORD_LEN then
      c_read_loop excluded_letters required_letters known_letters rest
    else if c_accepts excluded_letters required_letters known_letters line_buffer then
      line_buffer :: c_read_loop excluded_letters required_letters known_letters rest
    else c_read_loop excluded_letters required_letters known_letters rest

/-- The C `main` from line 29 on, given the parameters of `-exclude`,
`-require` and `-known` (`none` for a parameter that is not there) and the
bytes of the word file. The result is `none` when the program ends with
`EXIT_FAILURE`, and otherwise the list of the buffers it prints. -/
def c_main (excludeParam requireParam knownParam : Option (List Nat)) (wordfile : List Nat) :
    Option (List (List Nat)) :=
  match c_get_letters_from_param excludeParam with
  | none => none
  | some excluded_letters =>
    match get_population_count excluded_letters with
    | none => none
    | some n_excluded =>
      if n_excluded ≥ 26 then none
      else
        match c_get_letters_from_param requireParam with
        | none => none
        | some required_letters =>
          match get_population_count required_letters with
          | none => none
          | some n_required =>
            if n_required > WORDLE_WORD_LEN then none
            else if excluded_letters &&& required_letters ≠ 0 then none
            else
              match c_known_letters knownParam with
              | none => none
              | some known_letters =>
                some (c_read_loop excluded_letters required_letters known_letters
                  (fgets_loop wordfile []))

/-! ## Tightening the constraints of the C program -/

/-- Every letter of the mask `a` is a letter of the mask `b`. -/
def mask_subset (a b : Nat) : Prop := ∀ i, a.testBit i = true → b.testBit i = true

/-- The array `known'` pins every position that `known` pins, to the same letter
(`95` is `'_'`, a position that is not pinned). -/
def known_refines (known known' : List Nat) : Prop :=
  ∀ i, i < 5 → known.getD i 0 ≠ 95 → known'.getD i 0 = known.getD i 0

/-! # Theorems -/

/-! ## Bit masks -/

theorem is_alpha_char_iff (c : Nat) : is_alpha_char c = true ↔ 97 ≤ c ∧ c ≤ 122 := by
  simp [is_alpha_char]

theorem letter_mask_eq {c : Nat} (h : is_alpha_char c = true) :
    (1 <<< (c - 97)) % 2 ^ 32 = 2 ^ (c - 97) := by
  rw [is_alpha_char_iff] at h
  rw [Nat.one_shiftLeft]
  apply Nat.mod_eq_of_lt
  apply Nat.pow_lt_pow_right (by norm_num)
  omega

theorem and_two_pow_eq_zero (x n : Nat) : x &&& 2 ^ n = 0 ↔ x.testBit n = false := by
  constructor
  · intro h
    have := congrArg (fun y => y.testBit n) h
    simpa [Nat.testBit_two_pow_self] using this
  · intro h
    apply Nat.eq_of_testBit_eq
    intro i
    by_cases hi : n = i
    · subst hi; simp [h]
    · simp [Nat.testBit_two_pow_of_ne hi]

theorem and_eq_right_iff (f r : Nat) :
    f &&& r = r ↔ ∀ b, r.testBit b = true → f.testBit b = true := by
  constructor
  · intro h b hb
    have := congrArg (fun y => y.testBit b) h
    simp [hb] at this
    exact this
  · intro h
    apply Nat.eq_of_testBit_eq
    intro i
    cases hr : r.testBit i
    · simp [hr]
    · simp [h i hr, hr]

/-! ## The C scan -/

theorem c_scan_loop_succ (e : Nat) (k l : List Nat) (fuel i f : Nat) :
    c_scan_loop e k l (fuel + 1) i f =
      if is_alpha_char (l.getD i 0) = true then
        if k.getD i 0 ≠ 95 ∧ l.getD i 0 ≠ k.getD i 0 then (false, f)
        else if e.testBit (l.getD i 0 - 97) = true then (false, f)
        else c_scan_loop e k l fuel (i + 1) (f ||| 2 ^ (l.getD i 0 - 97))
      else (false, f) := by
  rw [c_scan_loop]
  by_cases ha : is_alpha_char (l.getD i 0) = true
  · have hm : (e &&& ((1 <<< (l.getD i 0 - 97)) % 2 ^ 32) ≠ 0) ↔
        e.testBit (l.getD i 0 - 97) = true := by
      rw [letter_mask_eq ha, Ne, and_two_pow_eq_zero]
      cases e.testBit (l.getD i 0 - 97) <;> simp
    simp only [ha, Bool.not_true, Bool.false_eq_true, if_false, if_true, hm]
    rw [letter_mask_eq ha]
  · simp only [Bool.not_eq_true] at ha
    simp only [ha, Bool.not_false, if_true, Bool.false_eq_true, if_false]

theorem c_scan_loop_valid (excluded : Nat) (known line : List Nat) :
    ∀ (fuel i found : Nat),
      (c_scan_loop excluded known line fuel i found).1 = true ↔
        ∀ j, i ≤ j → j < i + fuel → c_pos_ok excluded known line j := by
  intro fuel
  induction fuel with
  | zero =>
    intro i found
    simp only [c_scan_loop, true_iff]
    intro j h1 h2
    omega
  | succ n ih =>
    intro i found
    rw [c_scan_loop_succ]
    split_ifs with ha hk he
    · simp only [Bool.false_eq_true, false_iff]
      intro h
      exact hk.2 ((h i (le_refl _) (by omega)).2.1 hk.1)
    · simp only [Bool.false_eq_true, false_iff]
      intro h
      have := (h i (le_refl _) (by omega)).2.2
      rw [this] at he
      exact Bool.false_ne_true he
    · rw [ih]
      constructor
      · intro h j h1 h2
        by_cases hj : j = i
        · subst hj
          refine ⟨ha, ?_, by simpa using he⟩
          intro h95
          by_contra hne
          exact hk ⟨h95, hne⟩
        · exact h j (by omega) (by omega)
      · intro h j h1 h2
        exact h j (by omega) (by omega)
    · simp only [Bool.false_eq_true, false_iff]
      intro h
      exact ha (h i (le_refl _) (by omega)).1

theorem c_scan_loop_found (excluded : Nat) (known line : List Nat) :
    ∀ (fuel i found : Nat),
      (c_scan_loop excluded known line fuel i found).1 = true →
      ∀ b, (c_scan_loop excluded known line fuel i found).2.testBit b = true ↔
        (found.testBit b = true ∨ ∃ j, i ≤ j ∧ j < i + fuel ∧ line.getD j 0 = 97 + b) := by
  intro fuel
  induction fuel with
  | zero =>
    intro i found _ b
    simp only [c_scan_loop]
    constructor
    · intro h; exact Or.inl h
    · rintro (h | ⟨j, h1, h2, _⟩)
      · exact h
      · omega
  | succ n ih =>
    intro i found hv b
    rw [c_scan_loop_succ] at hv ⊢
    split_ifs at hv ⊢ with ha hk he
    · rw [ih _ _ hv b, Nat.testBit_or, Nat.testBit_two_pow]
      have hr := (is_alpha_char_iff _).1 ha
      constructor
      · rintro (h | ⟨j, h1, h2, h3⟩)
        · simp only [Bool.or_eq_true, decide_eq_true_eq] at h
          rcases h with h | h
          · exact Or.inl h
          · exact Or.inr ⟨i, le_refl _, by omega, by omega⟩
        · exact Or.inr ⟨j, by omega, by omega, h3⟩
      · rintro (h | ⟨j, h1, h2, h3⟩)
        · left; simp [h]
        · by_cases hj : j = i
          · subst hj
            left
            simp only [Bool.or_eq_true, decide_eq_true_eq]
            right; omega
          · exact Or.inr ⟨j, by omega, by omega, h3⟩

/-- The C scan, read off its loop: a line is accepted exactly when every one
of the five positions passes the per-position check and every bit of the
required mask is the bit of some character of the line. -/
theorem c_accepts_iff (excluded required : Nat) (known line : List Nat) :
    c_accepts excluded required known line = true ↔
      (∀ i, i < 5 → c_pos_ok excluded known line i) ∧
      (∀ b, required.testBit b = true → ∃ i, i < 5 ∧ line.getD i 0 = 97 + b) := by
  unfold c_accepts WORDLE_WORD_LEN
  simp only [Bool.and_eq_true, decide_eq_true_eq]
  constructor
  · rintro ⟨hv, hr⟩
    have hf := c_scan_loop_found excluded known line 5 0 0 hv
    rw [c_scan_loop_valid] at hv
    refine ⟨fun i hi => hv i (Nat.zero_le _) (by omega), ?_⟩
    intro b hb
    have := (and_eq_right_iff _ _).1 hr b hb
    rw [hf b] at this
    rcases this with h | ⟨j, _, h2, h3⟩
    · simp at h
    · exact ⟨j, by omega, h3⟩
  · rintro ⟨hv, hr⟩
    have hv' : (c_scan_loop excluded known line 5 0 0).1 = true := by
      rw [c_scan_loop_valid]
      intro j _ h2
      exact hv j (by omega)
    refine ⟨hv', ?_⟩
    rw [and_eq_right_iff]
    intro b hb
    rw [c_scan_loop_found excluded known line 5 0 0 hv' b]
    obtain ⟨i, hi, h⟩ := hr b hb
    exact Or.inr ⟨i, Nat.zero_le _, by omega, h⟩

theorem getD_mem_of_lt {l : List Nat} {i : Nat} (h : i < l.length) : l.getD i 0 ∈ l := by
  rw [List.getD_eq_getElem l 0 h]
  exact List.getElem_mem h

theorem exists_getD_of_mem {l : List Nat} {c : Nat} (h : c ∈ l) :
    ∃ i, i < l.length ∧ l.getD i 0 = c := by
  obtain ⟨i, hi, rfl⟩ := List.getElem_of_mem h
  exact ⟨i, hi, List.getD_eq_getElem l 0 hi⟩

/-- The C scan on a line of five characters, in terms of the characters of the
line and the letters of the masks. -/
theorem c_accepts_iff_letters (excluded required : Nat) (known line : List Nat)
    (hl : line.length = 5) :
    c_accepts excluded required known line = true ↔
      (∀ c ∈ line, 97 ≤ c ∧ c ≤ 122) ∧
      (∀ i, i < 5 → known.getD i 0 ≠ 95 → line.getD i 0 = known.getD i 0) ∧
      (∀ c ∈ line, ¬ in_mask excluded c) ∧
      (∀ c, in_mask required c → c ∈ line) := by
  rw [c_accepts_iff]
  constructor
  · rintro ⟨hv, hr⟩
    refine ⟨?_, ?_, ?_, ?_⟩
    · intro c hc
      obtain ⟨i, hi, rfl⟩ := exists_getD_of_mem hc
      exact (is_alpha_char_iff _).1 (hv i (by omega)).1
    · intro i hi
      exact (hv i hi).2.1
    · intro c hc hm
      obtain ⟨i, hi, rfl⟩ := exists_getD_of_mem hc
      have := (hv i (by omega)).2.2
      rw [hm.2] at this
      exact Bool.noConfusion this
    · rintro c ⟨h1, h2⟩
      obtain ⟨i, hi, h⟩ := hr (c - 97) h2
      have : c = line.getD i 0 := by omega
      rw [this]
      exact getD_mem_of_lt (by omega)
  · rintro ⟨ha, hk, he, hr⟩
    constructor
    · intro i hi
      have hm : line.getD i 0 ∈ line := getD_mem_of_lt (by omega)
      refine ⟨(is_alpha_char_iff _).2 (ha _ hm), hk i hi, ?_⟩
      by_contra hne
      exact he _ hm ⟨(ha _ hm).1, by simpa using hne⟩
    · intro b hb
      have hm := hr (97 + b) ⟨by omega, by simpa using hb⟩
      obtain ⟨i, hi, h⟩ := exists_getD_of_mem hm
      exact ⟨i, by omega, h⟩

/-- C1: in the C program, a line of exactly five characters is printed if and
only if all five characters are lowercase letters, every pinned position
(`known[i] ≠ '_'`) holds the pinned letter, no character of the line is in the
excluded mask, and every letter of the required mask occurs in the line. -/
theorem c_scan_accepts_iff_constraints (excluded required : Nat) (known line : List Nat)
    (hl : line.length = 5) :
    c_accepts excluded required known line = true ↔
      (∀ c ∈ line, 97 ≤ c ∧ c ≤ 122) ∧
      (∀ i, i < 5 → known.getD i 0 ≠ 95 → line.getD i 0 = known.getD i 0) ∧
      (∀ c ∈ line, ¬ in_mask excluded c) ∧
      (∀ c, in_mask required c → c ∈ line) := by
  rw [c_accepts_iff]
  constructor
  · rintro ⟨hv, hr⟩
    refine ⟨?_, ?_, ?_, ?_⟩
    · intro c hc
      obtain ⟨i, hi, rfl⟩ := exists_getD_of_mem hc
      exact (is_alpha_char_iff _).1 (hv i (by omega)).1
    · intro i hi
      exact (hv i hi).2.1
    · intro c hc hm
      obtain ⟨i, hi, rfl⟩ := exists_getD_of_mem hc
      have := (hv i (by omega)).2.2
      rw [hm.2] at this
      exact Bool.noConfusion this
    · rintro c ⟨h1, h2⟩
      obtain ⟨i, hi, h⟩ := hr (c - 97) h2
      have : c = line.getD i 0 := by omega
      rw [this]
      exact getD_mem_of_lt (by omega)
  · rintro ⟨ha, hk, he, hr⟩
    constructor
    · intro i hi
      have hm : line.getD i 0 ∈ line := getD_mem_of_lt (by omega)
      refine ⟨(is_alpha_char_iff _).2 (ha _ hm), hk i hi, ?_⟩
      by_contra hne
      exact he _ hm ⟨(ha _ hm).1, by simpa using hne⟩
    · intro b hb
      have hm := hr (97 + b) ⟨by omega, by simpa using hb⟩
      obtain ⟨i, hi, h⟩ := exists_getD_of_mem hm
      exact ⟨i, by omega, h⟩

/-- Scenario 1 of the specification through C1: with `q` excluded, nothing
required and nothing pinned, `apple` is printed. -/
theorem c_scan_accepts_iff_constraints_witness :
    (codes "apple").length = 5 ∧
      c_accepts (2 ^ 16) 0 (codes "_____") (codes "apple") = true :=
  ⟨by decide,
   (c_scan_accepts_iff_constraints (2 ^ 16) 0 (codes "_____") (codes "apple") (by decide)).2
    ⟨by decide, by decide, by
      intro c hc hm
      have h : c = 97 ∨ c = 112 ∨ c = 108 ∨ c = 101 := by simpa [codes] using hc
      rcases h with rfl | rfl | rfl | rfl <;> exact absurd hm.2 (by decide),
     by
      intro c hc
      exact absurd hc.2 (by simp)⟩⟩

/-- Scenario 1 of the specification, evaluated on the C scan. -/
theorem c_scan_scenario_1 :
    (codes "apple" :: codes "queue" :: codes "crane" :: []).filter
        (c_accepts (2 ^ 16) 0 (codes "_____")) = codes "apple" :: codes "crane" :: [] := by
  decide

/-! ## The bitset scan -/

/-- C2, evaluated at its failing inputs: the bitset program counts the
positions that hold a required letter and compares that number with the number
of required letters. With `e` required it rejects `geese`, in which `e` occurs
(three times); with `a` and `e` required it prints `queen`, in which `a` does
not occur. Both lines are five lowercase letters and there is no excluded
letter and no pinned position. -/
theorem set_scan_counts_repeated_required_letters :
    (set_accepts 0 (2 ^ 4) (codes "*****") (codes "geese") = some false ∧
      101 ∈ codes "geese" ∧ in_mask (2 ^ 4) 101 ∧ ∀ c, in_mask (2 ^ 4) c → c = 101) ∧
    (set_accepts 0 (2 ^ 0 ||| 2 ^ 4) (codes "*****") (codes "queen") = some true ∧
      in_mask (2 ^ 0 ||| 2 ^ 4) 97 ∧ 97 ∉ codes "queen") := by
  refine ⟨⟨by decide, by decide, ⟨by decide, by decide⟩, ?_⟩, by decide, ⟨by decide, by decide⟩,
    by decide⟩
  rintro c ⟨h1, h2⟩
  rw [Nat.testBit_two_pow] at h2
  simp only [decide_eq_true_eq] at h2
  omega

/-! ## The include filter -/

theorem wordIsValid_iff (word letters : List Nat) :
    wordIsValid word letters = true ↔ ∀ c ∈ letters, c ∈ word := by
  induction letters with
  | nil => simp [wordIsValid]
  | cons c cs ih =>
    rw [wordIsValid]
    by_cases h : c ∈ word
    · simp [h, ih]
    · simp [h]

theorem foldl_push_eq_filter (p : List Nat → Bool) (wordList acc : List (List Nat)) :
    wordList.foldl (fun filteredWords word =>
      if p word then filteredWords ++ [word] else filteredWords) acc =
      acc ++ wordList.filter p := by
  induction wordList generalizing acc with
  | nil => simp
  | cons w ws ih =>
    rw [List.foldl_cons, ih]
    by_cases h : p w = true
    · simp [h, List.filter_cons]
    · simp [h, List.filter_cons]

theorem filter_eq_self_of_length_ge (p : List Nat → Bool) (l : List (List Nat))
    (h : ¬ (l.filter p).length < l.length) : l.filter p = l := by
  have hle : (l.filter p).length ≤ l.length := List.length_filter_le p l
  have hsub : (l.filter p).Sublist l := List.filter_sublist l
  exact hsub.eq_of_length (by omega)

/-- C9: when the word length is at least 4 and the include argument yields
between 1 and `wordLength` letters, `filterWordsWithoutIncludedLetters` returns
the words of the list that contain every included letter, in their order and
with their repetitions: the `List.filter` of the input list. -/
theorem filterWords_eq_filter (wordList : List (List Nat)) (wordLength : Nat)
    (includeArg : List Nat) (h4 : 4 ≤ wordLength)
    (h1 : 1 ≤ (letters_of_arg includeArg).length)
    (h2 : (letters_of_arg includeArg).length ≤ wordLength) :
    filterWordsWithoutIncludedLetters wordList wordLength includeArg =
      wordList.filter (fun word => decide (∀ c ∈ letters_of_arg includeArg, c ∈ word)) := by
  have hp : (fun word => decide (∀ c ∈ letters_of_arg includeArg, c ∈ word)) =
      (fun word => wordIsValid word (letters_of_arg includeArg)) := by
    funext word
    rw [Bool.eq_iff_iff, decide_eq_true_eq, wordIsValid_iff]
  rw [hp]
  unfold filterWordsWithoutIncludedLetters
  by_cases hw : wordList = []
  · simp [hw]
  · have hne : letters_of_arg includeArg ≠ [] := by
      intro h0
      rw [h0] at h1
      simp at h1
    have hinc : includeArg ≠ [] := by
      intro h0
      apply hne
      rw [h0]
      rfl
    have hc1 : ¬ (wordList = [] ∨ wordLength < MIN_WORD_LENGTH ∨ includeArg = []) := by
      unfold MIN_WORD_LENGTH
      rintro (h | h | h)
      · exact hw h
      · omega
      · exact hinc h
    have hc2 : ¬ (letters_of_arg includeArg = [] ∨ (letters_of_arg includeArg).length > wordLength) := by
      rintro (h | h)
      · exact hne h
      · omega
    simp only [hc1, hc2, if_false]
    rw [foldl_push_eq_filter, List.nil_append]
    split_ifs with hlt
    · rfl
    · exact (filter_eq_self_of_length_ge _ _ hlt).symm

/-- C9 on the list `crane, blast, crane` with `-include a,e` at word length 5:
the result is `crane, crane`. -/
theorem filterWords_eq_filter_witness :
    filterWordsWithoutIncludedLetters [codes "crane", codes "blast", codes "crane"] 5
        (codes "a,e") = [codes "crane", codes "crane"] := by
  rw [filterWords_eq_filter _ 5 (codes "a,e") (by decide) (by decide) (by decide)]
  decide

/-! ## The letter group -/

theorem group_loop_append (last : Nat) (cs : List Nat) :
    ∀ (prev consec : Nat) (out : List Nat),
      group_loop last prev consec out cs = out ++ group_loop last prev consec [] cs := by
  induction cs with
  | nil => intro prev consec out; simp [group_loop]
  | cons c cs ih =>
    intro prev consec out
    rw [group_loop, group_loop]
    split_ifs
    all_goals simp only []
    all_goals rw [ih]
    all_goals conv_rhs => rw [ih]
    all_goals simp only [List.append_assoc, List.nil_append]
    all_goals try split_ifs
    all_goals try simp only [List.append_assoc, List.nil_append, List.append_nil]

theorem run_text_eq (r : Nat × Nat) (h : r.1 ≤ r.2) :
    run_text r = r.1 :: pending_close (r.2 - r.1) r.2 := by
  unfold run_text pending_close
  by_cases h1 : r.2 = r.1
  · simp [h1]
  · by_cases h2 : r.2 = r.1 + 1
    · simp [h2]
    · have h3 : ¬ (r.2 - r.1 = 0) := by omega
      have h4 : ¬ (r.2 - r.1 = 1) := by omega
      simp [h1, h2, h3, h4]

theorem chain_lt_of_mem {a : Nat} {l : List Nat} (h : List.Chain (· < ·) a l) :
    ∀ x ∈ l, a < x := by
  induction l generalizing a with
  | nil => intro x hx; simp at hx
  | cons b l ih =>
    intro x hx
    rw [List.chain_cons] at h
    rcases List.mem_cons.1 hx with rfl | hx
    · exact h.1
    · exact lt_trans h.1 (ih h.2 x hx)

theorem getLastD_mem_of_ne_nil {l : List Nat} (h : l ≠ []) (a : Nat) : l.getLastD a ∈ l := by
  cases l with
  | nil => exact absurd rfl h
  | cons b l =>
    rw [List.getLastD_cons]
    exact List.getLastD_mem_cons l b

theorem runs_from_head (cs : List Nat) :
    ∀ lo hi, ∃ hi' rs, runs_from lo hi cs = (lo, hi') :: rs ∧
      (List.Chain (· < ·) hi cs → hi ≤ hi') := by
  induction cs with
  | nil => intro lo hi; exact ⟨hi, [], rfl, fun _ => le_refl _⟩
  | cons c cs ih =>
    intro lo hi
    rw [runs_from]
    split_ifs with h
    · obtain ⟨hi', rs, h1, h2⟩ := ih lo c
      refine ⟨hi', rs, h1, ?_⟩
      intro hch
      rw [List.chain_cons] at hch
      have := h2 hch.2
      omega
    · exact ⟨hi, _, rfl, fun _ => le_refl _⟩

theorem flatten_runs_from (cs : List Nat) (lo hi : Nat) (h : lo ≤ hi)
    (hch : List.Chain (· < ·) hi cs) :
    ((runs_from lo hi cs).map run_text).flatten = lo :: pending_text (runs_from lo hi cs) := by
  obtain ⟨hi', rs, h1, h2⟩ := runs_from_head cs lo hi
  have h3 := h2 hch
  rw [h1, List.map_cons, List.flatten_cons, pending_text, run_text_eq _ (by simpa using le_trans h h3)]
  simp

theorem group_loop_eq_pending (last : Nat) (cs : List Nat) :
    ∀ (prev consec lo : Nat), cs ≠ [] → List.Chain (· < ·) prev cs → cs.getLastD prev = last →
      lo ≤ prev → consec = prev - lo →
      group_loop last prev consec [] cs = pending_text (runs_from lo prev cs) := by
  induction cs with
  | nil => intro _ _ _ h; exact absurd rfl h
  | cons c cs ih =>
    intro prev consec lo _ hch hlast hlo hcon
    rw [List.chain_cons] at hch
    obtain ⟨hlt, hch'⟩ := hch
    rw [List.getLastD_cons] at hlast
    rw [group_loop, runs_from]
    by_cases hc : c = prev + 1
    · have hi : (c : Int) - (prev : Int) = 1 := by omega
      rw [if_pos hi, if_pos hc]
      by_cases hcs : cs = []
      · subst hcs
        have hl : c = last := by simpa using hlast
        simp only [if_pos hl, group_loop, runs_from, pending_text, pending_close]
        have h0 : ¬ (c - lo = 0) := by omega
        by_cases h1 : c - lo = 1
        · have h2 : ¬ (consec + 1 > 1) := by omega
          simp [h0, h1, h2]
        · have h2 : consec + 1 > 1 := by omega
          simp [h0, h1, h2]
      · have hl : ¬ (c = last) := by
          have hm : last ∈ cs := hlast ▸ getLastD_mem_of_ne_nil hcs c
          have := chain_lt_of_mem hch' last hm
          omega
        simp only [if_neg hl]
        exact ih c (consec + 1) lo hcs hch' hlast (by omega) (by omega)
    · have hi : ¬ ((c : Int) - (prev : Int) = 1) := by omega
      rw [if_neg hi, if_neg hc]
      simp only []
      rw [group_loop_append, pending_text]
      simp only []
      have hclose : (if consec > 0 then (if consec > 1 then ([] : List Nat) ++ [45] else []) ++ [prev]
          else []) = pending_close (prev - lo) prev := by
        unfold pending_close
        by_cases h0 : prev - lo = 0
        · have : ¬ (consec > 0) := by omega
          simp [h0, this]
        · by_cases h1 : prev - lo = 1
          · have h2 : consec > 0 := by omega
            have h3 : ¬ (consec > 1) := by omega
            simp [h0, h1, h2, h3]
          · have h2 : consec > 0 := by omega
            have h3 : consec > 1 := by omega
            simp [h0, h1, h2, h3]
      rw [hclose, List.append_assoc]
      congr 1
      by_cases hcs : cs = []
      · subst hcs
        simp [group_loop, runs_from, run_text]
      · rw [ih c 0 c hcs hch' hlast (le_refl _) (by omega),
          flatten_runs_from cs c c (le_refl _) hch']
        rfl

/-- The text between `[^` and `]` is the concatenation of the texts of the
maximal runs of the excluded set, in ascending order. -/
theorem group_body_eq (S : List Nat) (hS : List.Chain' (· < ·) S) :
    group_body S = ((runs S).map run_text).flatten := by
  cases S with
  | nil => simp [group_body, group_loop, runs]
  | cons c0 cs =>
    have hch : List.Chain (· < ·) c0 cs := hS
    unfold group_body
    rw [List.headD_cons, List.getLastD_cons, group_loop]
    have hi : ¬ ((c0 : Int) - (c0 : Int) = 1) := by omega
    rw [if_neg hi]
    simp only [gt_iff_lt, lt_self_iff_false, if_false, List.nil_append]
    rw [group_loop_append, runs]
    by_cases hcs : cs = []
    · subst hcs
      simp [group_loop, runs_from, run_text]
    · rw [group_loop_eq_pending _ cs c0 0 c0 hcs hch rfl (le_refl _) (by omega),
        flatten_runs_from cs c0 c0 (le_refl _) hch]
      rfl

theorem letterGroup_eq (S : List Nat) (hS : S ≠ []) :
    letterGroup S = codes "[" ++ [94] ++ group_body S ++ codes "]" := by
  unfold letterGroup group_body
  rw [if_neg hS, group_loop_append]

/-! ## Maximal runs -/

theorem mem_runs_from (cs : List Nat) :
    ∀ (lo hi : Nat), lo ≤ hi → ∀ x,
      (∃ r ∈ runs_from lo hi cs, r.1 ≤ x ∧ x ≤ r.2) ↔ ((lo ≤ x ∧ x ≤ hi) ∨ x ∈ cs) := by
  induction cs with
  | nil =>
    intro lo hi _ x
    simp [runs_from]
  | cons c cs ih =>
    intro lo hi hle x
    rw [runs_from]
    split_ifs with h
    · rw [ih lo c (by omega) x, List.mem_cons]
      constructor
      · rintro (⟨h1, h2⟩ | h1)
        · by_cases hx : x = c
          · exact Or.inr (Or.inl hx)
          · exact Or.inl ⟨h1, by omega⟩
        · exact Or.inr (Or.inr h1)
      · rintro (⟨h1, h2⟩ | h1 | h1)
        · exact Or.inl ⟨h1, by omega⟩
        · exact Or.inl ⟨by omega, by omega⟩
        · exact Or.inr h1
    · simp only [List.mem_cons, exists_eq_or_imp]
      rw [ih c c (le_refl _) x]
      constructor
      · rintro (h1 | ⟨h1, h2⟩ | h1)
        · exact Or.inl h1
        · exact Or.inr (Or.inl (by omega))
        · exact Or.inr (Or.inr h1)
      · rintro (h1 | h1 | h1)
        · exact Or.inl h1
        · exact Or.inr (Or.inl ⟨by omega, by omega⟩)
        · exact Or.inr (Or.inr h1)

/-- A code is in the set exactly when one of the runs holds it. -/
theorem mem_runs (S : List Nat) (x : Nat) :
    (∃ r ∈ runs S, r.1 ≤ x ∧ x ≤ r.2) ↔ x ∈ S := by
  cases S with
  | nil => simp [runs]
  | cons c cs =>
    rw [runs, mem_runs_from cs c c (le_refl _) x, List.mem_cons]
    constructor
    · rintro (h | h)
      · exact Or.inl (by omega)
      · exact Or.inr h
    · rintro (h | h)
      · exact Or.inl (by omega)
      · exact Or.inr h

theorem runs_from_chain (cs : List Nat) :
    ∀ (lo hi : Nat), lo ≤ hi → List.Chain (· < ·) hi cs →
      List.Chain' run_before (runs_from lo hi cs) ∧ ∀ r ∈ runs_from lo hi cs, r.1 ≤ r.2 := by
  induction cs with
  | nil =>
    intro lo hi hle _
    simp [runs_from, hle]
  | cons c cs ih =>
    intro lo hi hle hch
    rw [List.chain_cons] at hch
    rw [runs_from]
    split_ifs with h
    · exact ih lo c (by omega) hch.2
    · obtain ⟨hi', rs, h1, h2⟩ := runs_from_head cs c c
      have ihc := ih c c (le_refl _) hch.2
      have h3 := h2 hch.2
      constructor
      · rw [List.chain'_cons', h1]
        refine ⟨?_, h1 ▸ ihc.1⟩
        intro y hy
        simp only [List.head?_cons, Option.mem_def, Option.some.injEq] at hy
        subst hy
        unfold run_before
        simp only
        omega
      · intro r hr
        rcases List.mem_cons.1 hr with rfl | hr
        · exact hle
        · exact ihc.2 r hr

/-- The runs of an ascending list are well formed and pairwise separated. -/
theorem runs_pairwise (S : List Nat) (hS : List.Chain' (· < ·) S) :
    List.Pairwise run_before (runs S) ∧ ∀ r ∈ runs S, r.1 ≤ r.2 := by
  cases S with
  | nil => simp [runs]
  | cons c cs =>
    have h := runs_from_chain cs c c (le_refl _) hS
    exact ⟨List.chain'_iff_pairwise.1 h.1, h.2⟩

/-- The list `runs S` holds exactly the maximal runs of `S`. -/
theorem mem_runs_iff_maximal (S : List Nat) (hS : List.Chain' (· < ·) S) (lo hi : Nat) :
    (lo, hi) ∈ runs S ↔ is_maximal_run S lo hi := by
  obtain ⟨hpw, hwf⟩ := runs_pairwise S hS
  have hsep : ∀ r ∈ runs S, ∀ s ∈ runs S, r ≠ s → run_before r s ∨ run_before s r := by
    intro r hr s hs hne
    obtain ⟨i, hi, rfl⟩ := List.getElem_of_mem hr
    obtain ⟨j, hj, rfl⟩ := List.getElem_of_mem hs
    rcases Nat.lt_trichotomy i j with h | h | h
    · exact Or.inl (List.pairwise_iff_getElem.1 hpw i j hi hj h)
    · subst h; exact absurd rfl hne
    · exact Or.inr (List.pairwise_iff_getElem.1 hpw j i hj hi h)
  constructor
  · intro hm
    have hle : lo ≤ hi := hwf _ hm
    refine ⟨hle, ?_, ?_, ?_⟩
    · intro x h1 h2
      exact (mem_runs S x).1 ⟨(lo, hi), hm, h1, h2⟩
    · intro x hx hxS
      obtain ⟨r, hr, h1, h2⟩ := (mem_runs S x).2 hxS
      by_cases hne : r = (lo, hi)
      · subst hne
        simp only at h1
        omega
      · rcases hsep r hr (lo, hi) hm hne with h | h <;> unfold run_before at h <;>
          simp only at h <;> omega
    · intro hxS
      obtain ⟨r, hr, h1, h2⟩ := (mem_runs S (hi + 1)).2 hxS
      by_cases hne : r = (lo, hi)
      · subst hne
        simp only at h2
        omega
      · rcases hsep r hr (lo, hi) hm hne with h | h <;> unfold run_before at h <;>
          simp only at h <;> omega
  · rintro ⟨hle, hin, hlo, hhi⟩
    obtain ⟨r, hr, h1, h2⟩ := (mem_runs S lo).2 (hin lo (le_refl _) hle)
    have hrin : ∀ x, r.1 ≤ x → x ≤ r.2 → x ∈ S := fun x a b => (mem_runs S x).1 ⟨r, hr, a, b⟩
    have e1 : r.1 = lo := by
      by_contra hne
      exact hlo (lo - 1) (by omega) (hrin (lo - 1) (by omega) (by omega))
    have e2 : r.2 = hi := by
      by_contra hne
      rcases Nat.lt_or_gt_of_ne hne with h | h
      · obtain ⟨s, hs, h3, h4⟩ := (mem_runs S (r.2 + 1)).2 (hin (r.2 + 1) (by omega) (by omega))
        by_cases hne' : s = r
        · subst hne'; omega
        · rcases hsep s hs r hr hne' with h' | h' <;> unfold run_before at h' <;> omega
      · exact hhi (hrin (hi + 1) (by omega) (by omega))
    have : r = (lo, hi) := Prod.ext e1 e2
    rw [← this]
    exact hr

/-! ## The letter group as class items -/

theorem class_items_single (a : Nat) (T : List Nat) (hT : T.head? ≠ some 45) :
    class_items (a :: T) = (class_items T).map (fun items => ClassItem.single a :: items) := by
  match T with
  | [] => rfl
  | [b] => rfl
  | b :: c :: rest =>
    have hb : b ≠ 45 := by
      intro h
      apply hT
      simp [h]
    rw [class_items, if_neg hb]

theorem class_items_range (a c : Nat) (T : List Nat) (h : a ≤ c) :
    class_items (a :: 45 :: c :: T) =
      (class_items T).map (fun items => ClassItem.range a c :: items) := by
  rw [class_items, if_pos rfl, if_pos h]

theorem run_text_head (r : Nat × Nat) (T : List Nat) : (run_text r ++ T).head? = some r.1 := by
  unfold run_text
  split_ifs <;> rfl

theorem runs_text_head (rs : List (Nat × Nat)) (h : ∀ r ∈ rs, r.1 ≠ 45) :
    ((rs.map run_text).flatten).head? ≠ some 45 := by
  cases rs with
  | nil => simp
  | cons r rs =>
    rw [List.map_cons, List.flatten_cons, run_text_head]
    intro h0
    exact h r (List.mem_cons_self _ _) (Option.some.inj h0)

theorem class_items_runs (rs : List (Nat × Nat))
    (h : ∀ r ∈ rs, r.1 ≤ r.2 ∧ r.1 ≠ 45 ∧ r.2 ≠ 45) :
    class_items ((rs.map run_text).flatten) = some ((rs.map run_items).flatten) := by
  induction rs with
  | nil => rfl
  | cons r rs ih =>
    have hr := h r (List.mem_cons_self _ _)
    have hrs : ∀ r ∈ rs, r.1 ≤ r.2 ∧ r.1 ≠ 45 ∧ r.2 ≠ 45 :=
      fun x hx => h x (List.mem_cons_of_mem _ hx)
    have hT := runs_text_head rs (fun x hx => (hrs x hx).2.1)
    have ih' := ih hrs
    rw [List.map_cons, List.flatten_cons, List.map_cons, List.flatten_cons]
    by_cases h1 : r.2 = r.1
    · have et : run_text r = [r.1] := by unfold run_text; rw [if_pos h1]
      have ei : run_items r = [ClassItem.single r.1] := by unfold run_items; rw [if_pos h1]
      rw [et, ei, List.singleton_append, class_items_single _ _ hT, ih']
      rfl
    · by_cases h2 : r.2 = r.1 + 1
      · have et : run_text r = [r.1, r.2] := by unfold run_text; rw [if_neg h1, if_pos h2]
        have ei : run_items r = [ClassItem.single r.1, ClassItem.single r.2] := by
          unfold run_items; rw [if_neg h1, if_pos h2]
        have hT2 : (r.2 :: (rs.map run_text).flatten).head? ≠ some 45 := by
          intro h0
          exact hr.2.2 (Option.some.inj h0)
        rw [et, ei]
        show class_items (r.1 :: r.2 :: (rs.map run_text).flatten) = _
        rw [class_items_single _ _ hT2, class_items_single _ _ hT, ih']
        rfl
      · have et : run_text r = [r.1, 45, r.2] := by unfold run_text; rw [if_neg h1, if_neg h2]
        have ei : run_items r = [ClassItem.range r.1 r.2] := by
          unfold run_items; rw [if_neg h1, if_neg h2]
        rw [et, ei]
        show class_items (r.1 :: 45 :: r.2 :: (rs.map run_text).flatten) = _
        rw [class_items_range _ _ _ hr.1, ih']
        rfl

theorem run_items_covers (r : Nat × Nat) (c : Nat) :
    (∃ t ∈ run_items r, t.covers c = true) ↔ (r.1 ≤ c ∧ c ≤ r.2) := by
  unfold run_items
  split_ifs with h1 h2
  · simp only [List.mem_singleton, exists_eq_left, ClassItem.covers, decide_eq_true_eq]
    omega
  · simp only [List.mem_cons, List.mem_singleton, List.not_mem_nil, or_false, exists_eq_or_imp,
      exists_eq_left, ClassItem.covers, decide_eq_true_eq]
    omega
  · simp only [List.mem_singleton, exists_eq_left, ClassItem.covers, Bool.and_eq_true,
      decide_eq_true_eq]

theorem run_items_bounds (r : Nat × Nat) (h : r.1 ≤ r.2) :
    ∀ t ∈ run_items r, r.1 ≤ t.lo ∧ t.lo ≤ t.hi ∧ t.hi ≤ r.2 := by
  unfold run_items
  split_ifs with h1 h2 <;> intro t ht <;>
    simp only [List.mem_cons, List.mem_singleton, List.not_mem_nil, or_false] at ht
  · subst ht
    simp only [ClassItem.lo, ClassItem.hi]
    omega
  · rcases ht with rfl | rfl <;> simp only [ClassItem.lo, ClassItem.hi] <;> omega
  · subst ht
    simp only [ClassItem.lo, ClassItem.hi]
    omega

theorem run_items_pairwise (r : Nat × Nat) :
    List.Pairwise (fun t u : ClassItem => t.hi < u.lo) (run_items r) := by
  unfold run_items
  split_ifs with h1 h2
  · simp
  · simp [ClassItem.lo, ClassItem.hi, h2]
  · simp

theorem run_items_range (r : Nat × Nat) (h : r.1 ≤ r.2) (lo hi : Nat)
    (ht : ClassItem.range lo hi ∈ run_items r) : lo + 2 ≤ hi := by
  unfold run_items at ht
  split_ifs at ht with h1 h2
  · simp at ht
  · simp at ht
  · simp only [List.mem_singleton, ClassItem.range.injEq] at ht
    omega

/-- The class items of the runs of an ascending list: in ascending order
without overlap, every range with at least three letters, and together
covering exactly the list. -/
theorem runs_items_spec (S : List Nat) (hS : List.Chain' (· < ·) S) :
    List.Pairwise (fun t u : ClassItem => t.hi < u.lo) (((runs S).map run_items).flatten) ∧
    (∀ lo hi, ClassItem.range lo hi ∈ ((runs S).map run_items).flatten → lo + 2 ≤ hi) ∧
    (∀ c, (∃ t ∈ ((runs S).map run_items).flatten, t.covers c = true) ↔ c ∈ S) := by
  obtain ⟨hpw, hwf⟩ := runs_pairwise S hS
  refine ⟨?_, ?_, ?_⟩
  · rw [List.pairwise_flatten]
    constructor
    · intro l hl
      obtain ⟨r, _, rfl⟩ := List.mem_map.1 hl
      exact run_items_pairwise r
    · rw [List.pairwise_map]
      refine hpw.imp_of_mem ?_
      intro r s hr hs hrs t ht u hu
      have h1 := run_items_bounds r (hwf r hr) t ht
      have h2 := run_items_bounds s (hwf s hs) u hu
      unfold run_before at hrs
      omega
  · intro lo hi hm
    obtain ⟨l, hl, hml⟩ := List.mem_flatten.1 hm
    obtain ⟨r, hr, rfl⟩ := List.mem_map.1 hl
    exact run_items_range r (hwf r hr) lo hi hml
  · intro c
    rw [← mem_runs S c]
    constructor
    · rintro ⟨t, ht, hc⟩
      obtain ⟨l, hl, hml⟩ := List.mem_flatten.1 ht
      obtain ⟨r, hr, rfl⟩ := List.mem_map.1 hl
      exact ⟨r, hr, (run_items_covers r c).1 ⟨t, hml, hc⟩⟩
    · rintro ⟨r, hr, h1, h2⟩
      obtain ⟨t, ht, hc⟩ := (run_items_covers r c).2 ⟨h1, h2⟩
      exact ⟨t, List.mem_flatten.2 ⟨_, List.mem_map.2 ⟨r, hr, rfl⟩, ht⟩, hc⟩

theorem runs_bounds_mem (S : List Nat) (hS : List.Chain' (· < ·) S) :
    ∀ r ∈ runs S, r.1 ≤ r.2 ∧ r.1 ∈ S ∧ r.2 ∈ S := by
  intro r hr
  have hle := (runs_pairwise S hS).2 r hr
  exact ⟨hle, (mem_runs S r.1).1 ⟨r, hr, le_refl _, hle⟩, (mem_runs S r.2).1 ⟨r, hr, hle, le_refl _⟩⟩

theorem isalpha_ne_dash {c : Nat} (h : isalpha c = true) : c ≠ 45 := by
  unfold isalpha at h
  simp only [Bool.or_eq_true, Bool.and_eq_true, decide_eq_true_eq] at h
  omega

theorem isalpha_of_lower {c : Nat} (h : 97 ≤ c ∧ c ≤ 122) : isalpha c = true := by
  unfold isalpha
  simp only [Bool.or_eq_true, Bool.and_eq_true, decide_eq_true_eq]
  omega

/-- The letter group of a set of letters that is not empty: its text, and the
class items that the text between `[^` and `]` reads as. -/
theorem letterGroup_text_and_items (S : List Nat) (hS : List.Chain' (· < ·) S) (hne : S ≠ [])
    (halpha : ∀ c ∈ S, isalpha c = true) :
    letterGroup S = codes "[^" ++ ((runs S).map run_text).flatten ++ codes "]" ∧
    class_items (((runs S).map run_text).flatten) = some (((runs S).map run_items).flatten) := by
  constructor
  · rw [letterGroup_eq S hne, group_body_eq S hS]
    rfl
  · apply class_items_runs
    intro r hr
    obtain ⟨h1, h2, h3⟩ := runs_bounds_mem S hS r hr
    exact ⟨h1, isalpha_ne_dash (halpha _ h2), isalpha_ne_dash (halpha _ h3)⟩

/-- C4: for a non-empty set of lowercase letters, the text between `[^` and
`]` of the letter group reads, from left to right, as single letters and
ranges `lo-hi`; each token ends before every later token starts (strictly
ascending, no overlap), every range has `lo < hi`, and a character is covered
by some token exactly when it is in the excluded set, so no run is dropped,
the run that ends the set included. -/
theorem letterGroup_tokens_spec (S : List Nat) (hS : List.Chain' (· < ·) S) (hne : S ≠ [])
    (hlow : ∀ c ∈ S, 97 ≤ c ∧ c ≤ 122) :
    ∃ body tokens, letterGroup S = codes "[^" ++ body ++ codes "]" ∧
      class_items body = some tokens ∧
      List.Pairwise (fun t u : ClassItem => t.hi < u.lo) tokens ∧
      (∀ lo hi, ClassItem.range lo hi ∈ tokens → lo < hi) ∧
      (∀ c, (∃ t ∈ tokens, t.covers c = true) ↔ c ∈ S) := by
  obtain ⟨h1, h2⟩ := letterGroup_text_and_items S hS hne (fun c hc => isalpha_of_lower (hlow c hc))
  obtain ⟨h3, h4, h5⟩ := runs_items_spec S hS
  refine ⟨_, _, h1, h2, h3, ?_, h5⟩
  intro lo hi hm
  have := h4 lo hi hm
  omega

/-- C4 at the set `{x, y, z}`, whose only run ends at `z`. -/
theorem letterGroup_tokens_spec_witness :
    ∃ body tokens, letterGroup (codes "xyz") = codes "[^" ++ body ++ codes "]" ∧
      class_items body = some tokens ∧
      List.Pairwise (fun t u : ClassItem => t.hi < u.lo) tokens ∧
      (∀ lo hi, ClassItem.range lo hi ∈ tokens → lo < hi) ∧
      (∀ c, (∃ t ∈ tokens, t.covers c = true) ↔ c ∈ codes "xyz") :=
  letterGroup_tokens_spec (codes "xyz") (by simp [codes]) (by decide) (by decide)

/-- The run that ends at `z` is written: `{x, y, z}` gives `[^x-z]`. -/
theorem letterGroup_xyz : letterGroup (codes "xyz") = codes "[^x-z]" := by decide

/-- C5 as stated fails: `{a, b}` is one maximal run of length 2, and the letter
group is `[^ab]`, which reads as the two single letters `a` and `b`; it is not
`[^a-b]`. -/
theorem letterGroup_run_of_two_is_not_a_range :
    is_maximal_run (codes "ab") 97 98 ∧
      letterGroup (codes "ab") = codes "[^ab]" ∧
      class_items (codes "ab") = some [ClassItem.single 97, ClassItem.single 98] ∧
      letterGroup (codes "ab") ≠ codes "[^a-b]" := by
  refine ⟨(mem_runs_iff_maximal (codes "ab") (by simp [codes]) 97 98).1 (by decide), by decide,
    by decide, by decide⟩

/-- C5, amended: for an excluded set that is not empty, the letter group is
`[^`, then for each maximal run of consecutive excluded letters, in ascending
order, the text of the run, then `]`. The text of a run is the letter alone
(one single-letter token) for a run of one, the two letters (two single-letter
tokens) for a run of two, and `lo-hi` (one range token) for a run of three or
more. `runs S` lists exactly the maximal runs of `S`. -/
theorem letterGroup_runs (S : List Nat) (hS : List.Chain' (· < ·) S) (hne : S ≠ [])
    (halpha : ∀ c ∈ S, isalpha c = true) :
    letterGroup S = codes "[^" ++ ((runs S).map run_text).flatten ++ codes "]" ∧
    class_items (((runs S).map run_text).flatten) = some (((runs S).map run_items).flatten) ∧
    List.Pairwise run_before (runs S) ∧
    (∀ lo hi, (lo, hi) ∈ runs S ↔ is_maximal_run S lo hi) ∧
    (∀ r : Nat × Nat, r.2 = r.1 →
      run_text r = [r.1] ∧ run_items r = [ClassItem.single r.1]) ∧
    (∀ r : Nat × Nat, r.2 = r.1 + 1 →
      run_text r = [r.1, r.2] ∧ run_items r = [ClassItem.single r.1, ClassItem.single r.2]) ∧
    (∀ r : Nat × Nat, r.1 + 2 ≤ r.2 →
      run_text r = [r.1, 45, r.2] ∧ run_items r = [ClassItem.range r.1 r.2]) := by
  obtain ⟨h1, h2⟩ := letterGroup_text_and_items S hS hne halpha
  refine ⟨h1, h2, (runs_pairwise S hS).1, mem_runs_iff_maximal S hS, ?_, ?_, ?_⟩
  · intro r hr
    unfold run_text run_items
    simp [hr]
  · intro r hr
    unfold run_text run_items
    simp [hr]
  · intro r hr
    have h3 : ¬ (r.2 = r.1) := by omega
    have h4 : ¬ (r.2 = r.1 + 1) := by omega
    unfold run_text run_items
    simp [h3, h4]

/-- C5, amended, at `{h, i, j}`: the one run gives the one token `h-j`. -/
theorem letterGroup_runs_witness :
    letterGroup (codes "hij") = codes "[^h-j]" ∧
      class_items (codes "h-j") = some [ClassItem.range 104 106] := by
  have h := letterGroup_runs (codes "hij") (by simp [codes]) (by decide) (by decide)
  refine ⟨?_, ?_⟩
  · rw [h.1]
    decide
  · have h2 := h.2.1
    have e1 : ((runs (codes "hij")).map run_text).flatten = codes "h-j" := by decide
    have e2 : ((runs (codes "hij")).map run_items).flatten = [ClassItem.range 104 106] := by
      decide
    rw [e1, e2] at h2
    exact h2

/-! ## The pattern -/

theorem pattern_loop_append (G : List Nat) (e : Nat) (rest : List Nat) :
    ∀ (i idx k : Nat) (out : List Nat),
      pattern_loop G e rest i idx k out = out ++ pattern_loop G e rest i idx k [] := by
  induction rest with
  | nil => intro i idx k out; simp [pattern_loop]
  | cons c rest ih =>
    intro i idx k out
    rw [pattern_loop, pattern_loop]
    split_ifs
    all_goals simp only []
    all_goals rw [ih]
    all_goals conv_rhs => rw [ih]
    all_goals simp only [List.append_assoc, List.nil_append]
    all_goals try split_ifs
    all_goals try simp only [List.append_assoc, List.nil_append, List.append_nil]

theorem pattern_loop_eq_tail (G : List Nat) (size : Nat) (hsize : size < 2 ^ 64)
    (rest : List Nat) :
    ∀ (i idx k : Nat), rest ≠ [] → i + rest.length = size → (0 < k → 1 ≤ i ∧ idx = i - 1) →
      pattern_loop G (size - 1) rest i idx k [] = tail_text G k rest := by
  induction rest with
  | nil => intro _ _ _ h; exact absurd rfl h
  | cons c rest ih =>
    intro i idx k _ hlen hinv
    rw [List.length_cons] at hlen
    rw [pattern_loop, tail_text]
    by_cases hc : c = 42
    · simp only [if_pos hc]
      by_cases hrest : rest = []
      · subst hrest
        have hend : i = size - 1 := by simp at hlen; omega
        simp only [pattern_loop, tail_text, run_quantifier, if_pos hend]
        by_cases hk : k = 0
        · subst hk
          simp
        · have h1 : ¬ (k + 1 ≤ 1) := by omega
          have h2 : k + 1 ≥ 2 := by omega
          simp [hk, h1, h2]
      · have hlen' : 0 < rest.length := List.length_pos.2 hrest
        have hend : ¬ (i = size - 1) := by omega
        rw [pattern_loop_append, ih (i + 1) i (k + 1) hrest (by omega) (fun _ => ⟨by omega, by omega⟩)]
        by_cases hk : k = 0
        · subst hk
          simp
        · have h1 : ¬ (k + 1 ≤ 1) := by omega
          simp [hk, h1, hend]
    · simp only [if_neg hc]
      have hq : (if idx = (i + 2 ^ 64 - 1) % 2 ^ 64 ∧ k > 1 then ([] : List Nat) ++ quantifier_text k
          else []) = run_quantifier k := by
        unfold run_quantifier
        by_cases hk : k ≥ 2
        · obtain ⟨h1, h2⟩ := hinv (by omega)
          have h3 : (i + 2 ^ 64 - 1) % 2 ^ 64 = i - 1 := by
            have : i + 2 ^ 64 - 1 = (i - 1) + 2 ^ 64 := by omega
            rw [this, Nat.add_mod_right]
            exact Nat.mod_eq_of_lt (by omega)
          have h4 : k > 1 := by omega
          rw [if_pos ⟨h2.trans h3.symm, h4⟩, if_pos hk, List.nil_append]
        · have h4 : ¬ (k > 1) := by omega
          rw [if_neg (fun h => h4 h.2), if_neg hk]
      rw [hq, pattern_loop_append]
      by_cases hrest : rest = []
      · subst hrest
        simp [pattern_loop, tail_text, run_quantifier]
      · rw [ih (i + 1) idx 0 hrest (by omega) (fun h => absurd h (lt_irrefl 0))]

theorem open_text_zero (G : List Nat) (bs : List Block) :
    open_text G 0 bs = (bs.map (block_text G)).flatten := by
  match bs with
  | [] => simp [open_text, run_quantifier]
  | Block.pinned c :: bs => simp [open_text, run_quantifier]
  | Block.unpinned n :: bs => simp [open_text, block_text]

theorem tail_text_eq_open (G : List Nat) (rest : List Nat) :
    ∀ k, tail_text G k rest = open_text G k (blocks rest) := by
  induction rest with
  | nil => intro k; simp [tail_text, blocks, open_text]
  | cons c rest ih =>
    intro k
    rw [tail_text, blocks]
    by_cases hc : c = 42
    · rw [if_pos hc, if_pos hc, ih (k + 1)]
      match hb : blocks rest with
      | [] => simp [open_text]
      | Block.pinned d :: bs => simp [open_text]
      | Block.unpinned n :: bs =>
        have e : k + 1 + n = k + (n + 1) := by omega
        simp [open_text, e]
    · rw [if_neg hc, if_neg hc, ih 0, open_text_zero]
      simp [open_text, block_text]

/-- With at least one `numKnownPositions`, the pattern is `^`, the items of
the blocks in position order, and `$`. -/
theorem build_regexString_eq_blocks (G : List Nat) (wordLength numKnown : Nat) (known : List Nat)
    (hlen : known.length < 2 ^ 64) (hnum : 0 < numKnown) :
    build_regexString G wordLength known numKnown =
      codes "^" ++ ((blocks known).map (block_text G)).flatten ++ codes "$" := by
  unfold build_regexString
  have h0 : ¬ (numKnown = 0) := by omega
  simp only [if_neg h0]
  by_cases hk : known = []
  · subst hk
    simp [pattern_loop, blocks]
  · rw [pattern_loop_eq_tail G known.length hlen known 0 0 0 hk (by omega)
      (fun h => absurd h (lt_irrefl 0)), tail_text_eq_open, open_text_zero]

theorem blocks_positions (known : List Nat) :
    ((blocks known).map Block.positions).flatten = known := by
  induction known with
  | nil => simp [blocks]
  | cons c cs ih =>
    rw [blocks]
    by_cases hc : c = 42
    · rw [if_pos hc]
      match hb : blocks cs with
      | [] =>
        rw [hb] at ih
        simp only [List.map_nil, List.flatten_nil] at ih
        simp [Block.positions, ← ih, hc]
      | Block.pinned d :: bs =>
        rw [hb] at ih
        simp only [List.map_cons, List.flatten_cons, List.replicate, Block.positions]
        simp only [List.map_cons, List.flatten_cons, Block.positions] at ih
        rw [← ih, hc]
        rfl
      | Block.unpinned n :: bs =>
        rw [hb] at ih
        simp only [List.map_cons, List.flatten_cons, Block.positions] at ih ⊢
        rw [← ih, hc, List.replicate_succ]
        rfl
    · rw [if_neg hc]
      simp [Block.positions, ih]

theorem blocks_wellformed (known : List Nat) :
    blocks_separated (blocks known) ∧
      (∀ n, Block.unpinned n ∈ blocks known → 1 ≤ n) ∧
      (∀ c, Block.pinned c ∈ blocks known → c ≠ 42) := by
  induction known with
  | nil => simp [blocks, blocks_separated]
  | cons c cs ih =>
    rw [blocks]
    by_cases hc : c = 42
    · rw [if_pos hc]
      match hb : blocks cs with
      | [] => simp [blocks_separated]
      | Block.pinned d :: bs =>
        rw [hb] at ih
        refine ⟨?_, ?_, ?_⟩
        · simpa [blocks_separated] using ih.1
        · intro n hn
          simp only [List.mem_cons, Block.unpinned.injEq, reduceCtorEq, false_or] at hn
          rcases hn with rfl | hn
          · exact le_refl _
          · exact ih.2.1 n (List.mem_cons_of_mem _ hn)
        · intro x hx
          simp only [List.mem_cons, reduceCtorEq, false_or] at hx
          exact ih.2.2 x (List.mem_cons.2 hx)
      | Block.unpinned n :: bs =>
        rw [hb] at ih
        refine ⟨?_, ?_, ?_⟩
        · have := ih.1
          match bs, this with
          | [], _ => simp [blocks_separated]
          | Block.pinned d :: bs', h => simpa [blocks_separated] using h
          | Block.unpinned m :: bs', h => simp [blocks_separated] at h
        · intro m hm
          simp only [List.mem_cons, Block.unpinned.injEq] at hm
          rcases hm with rfl | hm
          · omega
          · exact ih.2.1 m (List.mem_cons_of_mem _ hm)
        · intro x hx
          simp only [List.mem_cons, reduceCtorEq, false_or] at hx
          exact ih.2.2 x (List.mem_cons_of_mem _ hx)
    · rw [if_neg hc]
      refine ⟨?_, ?_, ?_⟩
      · have := ih.1
        match hb : blocks cs, this with
        | [], _ => simp [blocks_separated]
        | b :: bs, h => simpa [blocks_separated] using h
      · intro n hn
        simp only [List.mem_cons, reduceCtorEq, false_or] at hn
        exact ih.2.1 n hn
      · intro x hx
        simp only [List.mem_cons, Block.pinned.injEq] at hx
        rcases hx with rfl | hx
        · exact hc
        · exact ih.2.2 x hx

/-! ## The known positions -/

theorem pos_match_letter {arg ds : List Nat} {c : Nat} (h : pos_match arg = some (ds, c)) :
    is_alpha_char c = true := by
  unfold pos_match at h
  split at h
  · exact Option.noConfusion h
  · split_ifs at h with hc
    simp only [Option.some.injEq, Prod.mk.injEq] at h
    rw [← h.2]
    exact hc.1

/-- What the loop over the `-known` tokens keeps true: every entry of
`knownPositions` is `'*'` or a lowercase letter, and while
`numKnownPositions` is `0` every entry is `'*'`. -/
theorem known_loop_spec (wordLength : Nat) (args : List (List Nat)) :
    ∀ (kp : List Nat) (n : Nat) (kp' : List Nat) (n' : Nat),
      known_loop wordLength args kp n = some (kp', n') →
      (∀ c ∈ kp, c = 42 ∨ is_alpha_char c = true) → (n = 0 → ∀ c ∈ kp, c = 42) →
      kp'.length = kp.length ∧ (∀ c ∈ kp', c = 42 ∨ is_alpha_char c = true) ∧
        (n' = 0 → ∀ c ∈ kp', c = 42) := by
  induction args with
  | nil =>
    intro kp n kp' n' h h1 h2
    simp only [known_loop, Option.some.injEq, Prod.mk.injEq] at h
    obtain ⟨rfl, rfl⟩ := h
    exact ⟨rfl, h1, h2⟩
  | cons arg args ih =>
    intro kp n kp' n' h h1 h2
    rw [known_loop] at h
    split at h
    · exact ih kp n kp' n' h h1 h2
    · rename_i ds letter hm
      split_ifs at h with hbig
      simp only [] at h
      split_ifs at h with hpos
      · exact ih kp n kp' n' h h1 h2
      · have := ih _ _ kp' n' h
          (by
            intro c hc
            rcases List.mem_or_eq_of_mem_set hc with hc | hc
            · exact h1 c hc
            · exact Or.inr (hc ▸ pos_match_letter hm))
          (by intro h0; omega)
        rw [List.length_set] at this
        exact this

theorem known_positions_spec {wordLength : Nat} {knownArg known : List Nat} {numKnown : Nat}
    (h : known_positions wordLength knownArg = some (known, numKnown)) :
    known.length = wordLength ∧ (∀ c ∈ known, c = 42 ∨ is_alpha_char c = true) ∧
      (numKnown = 0 → ∀ c ∈ known, c = 42) := by
  unfold known_positions at h
  have := known_loop_spec wordLength _ _ _ _ _ h
    (by intro c hc; exact Or.inl (List.eq_of_mem_replicate hc))
    (by intro _ c hc; exact List.eq_of_mem_replicate hc)
  rw [List.length_replicate] at this
  exact this

/-- C6: for a word length in 4..11 and a known-position array of the program
with at least one pinned position, the pattern is `^`, then the items of the
blocks of the array in position order, then `$`. The blocks are the pinned
positions and the maximal runs of unpinned positions (put back together they
give the array, no two runs are adjacent, every run has at least one
position); the item of a pinned position is its letter, the item of a run of
`n` positions is the letter group once, followed by `{n}` exactly when
`n ≥ 2`. For `[_,_,o,_,_]` the pattern is group`{2}`, `o`, group`{2}`. -/
theorem regexString_blocks (excludedLetterSet : List Nat) (wordLength : Nat)
    (knownArg known : List Nat) (numKnown : Nat)
    (hwl : 4 ≤ wordLength ∧ wordLength ≤ 11)
    (hk : known_positions wordLength knownArg = some (known, numKnown))
    (hpin : ∃ c ∈ known, c ≠ 42) :
    regexString excludedLetterSet wordLength known numKnown =
        codes "^" ++ ((blocks known).map (block_text (letterGroup excludedLetterSet))).flatten ++
          codes "$" ∧
      ((blocks known).map Block.positions).flatten = known ∧
      blocks_separated (blocks known) ∧
      (∀ n, Block.unpinned n ∈ blocks known → 1 ≤ n) ∧
      (∀ c, Block.pinned c ∈ blocks known → c ≠ 42) ∧
      (∀ n, block_text (letterGroup excludedLetterSet) (Block.unpinned n) =
        letterGroup excludedLetterSet ++ (if n ≥ 2 then codes "\x7b" ++ to_string n ++ codes "\x7d"
          else [])) ∧
      (∀ c, block_text (letterGroup excludedLetterSet) (Block.pinned c) = [c]) ∧
      known_positions 5 (codes "3o") = some (codes "**o**", 1) ∧
      regexString excludedLetterSet 5 (codes "**o**") 1 =
        codes "^" ++ letterGroup excludedLetterSet ++ codes "{2}" ++ codes "o" ++
          letterGroup excludedLetterSet ++ codes "{2}" ++ codes "$" := by
  obtain ⟨hlen, -, hnum⟩ := known_positions_spec hk
  have hpos : 0 < numKnown := by
    rcases Nat.eq_zero_or_pos numKnown with h0 | h0
    · obtain ⟨c, hc, hne⟩ := hpin
      exact absurd (hnum h0 c hc) hne
    · exact h0
  have hw := blocks_wellformed known
  refine ⟨?_, blocks_positions known, hw.1, hw.2.1, hw.2.2, fun n => rfl, fun c => rfl,
    by decide, ?_⟩
  · unfold regexString
    refine build_regexString_eq_blocks _ _ _ _ ?_ hpos
    rw [hlen]
    omega
  · unfold regexString
    rw [build_regexString_eq_blocks _ _ _ _ (by decide) (by decide)]
    have hb : blocks (codes "**o**") = [Block.unpinned 2, Block.pinned 111, Block.unpinned 2] := by
      decide
    rw [hb]
    simp only [List.map_cons, List.map_nil, List.flatten_cons, List.flatten_nil, block_text,
      run_quantifier, quantifier_text, List.append_assoc, List.append_nil]
    rfl

/-- C6 at word length 5 with `-known 3o` and `q` excluded: the pattern is
`^[^q]{2}o[^q]{2}$`. -/
theorem regexString_blocks_witness :
    known_positions 5 (codes "3o") = some (codes "**o**", 1) ∧
      regexString (codes "q") 5 (codes "**o**") 1 = codes "^[^q]{2}o[^q]{2}$" := by
  have h := regexString_blocks (codes "q") 5 (codes "3o") (codes "**o**") 1
    ⟨by decide, by decide⟩ (by decide) ⟨111, by decide, by decide⟩
  refine ⟨by decide, ?_⟩
  rw [h.1]
  decide

/-! ## Compiling the pattern -/

theorem parse_from_append (st : Option PState) (a b : List Nat) :
    parse_from st (a ++ b) = parse_from (parse_from st a) b := by
  unfold parse_from
  rw [List.foldl_append]

theorem parse_from_cons (st : PState) (c : Nat) (t : List Nat) :
    parse_from (some st) (c :: t) = parse_from (parse_char st c) t := by
  unfold parse_from
  rw [List.foldl_cons]
  rfl

theorem parse_from_nil (st : Option PState) : parse_from st [] = st := rfl

theorem parse_body (rp : List Piece) (neg : Bool) (text : List Nat) :
    ∀ acc, (∀ c ∈ text, c ≠ 93 ∧ c ≠ 92 ∧ c ≠ 91) →
      parse_from (some ⟨rp, Mode.cls_body neg acc⟩) text =
        some ⟨rp, Mode.cls_body neg (acc ++ text)⟩ := by
  induction text with
  | nil => intro acc _; simp [parse_from_nil]
  | cons c t ih =>
    intro acc h
    obtain ⟨h1, h2, h3⟩ := h c (List.mem_cons_self _ _)
    have hstep : parse_char ⟨rp, Mode.cls_body neg acc⟩ c =
        some ⟨rp, Mode.cls_body neg (acc ++ [c])⟩ := by
      simp only [parse_char, cls_body_step, if_neg h1]
      rw [if_neg (by rintro (h | h); exact h2 h; exact h3 h)]
    rw [parse_from_cons, hstep, ih _ (fun x hx => h x (List.mem_cons_of_mem _ hx))]
    simp

theorem isalpha_bounds {c : Nat} (h : isalpha c = true) :
    (65 ≤ c ∧ c ≤ 90) ∨ (97 ≤ c ∧ c ≤ 122) := by
  unfold isalpha at h
  simpa only [Bool.or_eq_true, Bool.and_eq_true, decide_eq_true_eq] using h

theorem mem_run_text {r : Nat × Nat} {c : Nat} (h : c ∈ run_text r) :
    c = 45 ∨ c = r.1 ∨ c = r.2 := by
  unfold run_text at h
  split_ifs at h <;> simp at h <;> omega

theorem parse_group (S : List Nat) (hS : List.Chain' (· < ·) S)
    (halpha : ∀ c ∈ S, isalpha c = true) (rp : List Piece) (q : Bool) :
    parse_from (some ⟨rp, Mode.top q⟩) (letterGroup S) =
      some ⟨⟨group_atom S, 1⟩ :: rp, Mode.top true⟩ := by
  by_cases hne : S = []
  · subst hne
    rfl
  · obtain ⟨h1, h2⟩ := letterGroup_text_and_items S hS hne halpha
    have hbody : ∀ c ∈ ((runs S).map run_text).flatten, c ≠ 93 ∧ c ≠ 92 ∧ c ≠ 91 := by
      intro c hc
      obtain ⟨l, hl, hcl⟩ := List.mem_flatten.1 hc
      obtain ⟨r, hr, rfl⟩ := List.mem_map.1 hl
      obtain ⟨-, hr1, hr2⟩ := runs_bounds_mem S hS r hr
      have a1 := isalpha_bounds (halpha _ hr1)
      have a2 := isalpha_bounds (halpha _ hr2)
      rcases mem_run_text hcl with h | h | h <;> omega
    have e : codes "[^" = [91, 94] := by decide
    have e2 : codes "]" = [93] := by decide
    rw [h1, e, e2, List.append_assoc, List.cons_append, List.cons_append, List.nil_append,
      parse_from_cons]
    have s1 : parse_char ⟨rp, Mode.top q⟩ 91 = some ⟨rp, Mode.cls_start⟩ := rfl
    rw [s1, parse_from_cons]
    have s2 : parse_char ⟨rp, Mode.cls_start⟩ 94 = some ⟨rp, Mode.cls_body true []⟩ := rfl
    rw [s2, parse_from_append, parse_body rp true _ [] hbody, List.nil_append, parse_from_cons]
    have s3 : parse_char ⟨rp, Mode.cls_body true ((runs S).map run_text).flatten⟩ 93 =
        some ⟨⟨group_atom S, 1⟩ :: rp, Mode.top true⟩ := by
      simp only [parse_char, cls_body_step, if_pos, h2, Option.map_some']
      unfold group_atom group_items
      simp [hne]
    rw [s3, parse_from_nil]

theorem parse_quantifier (n : Nat) (hn : n ≤ 11) (p : Piece) (rp : List Piece) :
    parse_from (some ⟨p :: rp, Mode.top true⟩) (quantifier_text n) =
      some ⟨{ p with count := n } :: rp, Mode.top false⟩ := by
  interval_cases n <;> rfl

theorem parse_letter (c : Nat) (hc : is_alpha_char c = true) (rp : List Piece) (q : Bool) :
    parse_from (some ⟨rp, Mode.top q⟩) [c] = some ⟨⟨Atom.char c, 1⟩ :: rp, Mode.top true⟩ := by
  rw [is_alpha_char_iff] at hc
  rw [parse_from_cons, parse_from_nil]
  have h1 : ¬ (c = 91) := by omega
  have h2 : ¬ (c = 123) := by omega
  have h3 : ¬ (c = 94) := by omega
  have h4 : ¬ (c = 36) := by omega
  have h5 : unsupported_top c = false := by
    unfold unsupported_top
    simp only [Bool.or_eq_false_iff, decide_eq_false_iff_not]
    omega
  simp only [parse_char, if_neg h1, if_neg h2, if_neg h3, if_neg h4, h5]
  rfl

theorem parse_blocks (S : List Nat) (hS : List.Chain' (· < ·) S)
    (halpha : ∀ c ∈ S, isalpha c = true) (bs : List Block) :
    (∀ n, Block.unpinned n ∈ bs → 1 ≤ n ∧ n ≤ 11) →
    (∀ c, Block.pinned c ∈ bs → is_alpha_char c = true) →
    ∀ (rp : List Piece) (q : Bool), ∃ q',
      parse_from (some ⟨rp, Mode.top q⟩) ((bs.map (block_text (letterGroup S))).flatten) =
        some ⟨(bs.map (block_piece S)).reverse ++ rp, Mode.top q'⟩ := by
  induction bs with
  | nil =>
    intro _ _ rp q
    exact ⟨q, rfl⟩
  | cons b bs ih =>
    intro hu hp rp q
    have hu' : ∀ n, Block.unpinned n ∈ bs → 1 ≤ n ∧ n ≤ 11 :=
      fun n hn => hu n (List.mem_cons_of_mem _ hn)
    have hp' : ∀ c, Block.pinned c ∈ bs → is_alpha_char c = true :=
      fun c hc => hp c (List.mem_cons_of_mem _ hc)
    rw [List.map_cons, List.flatten_cons, parse_from_append, List.map_cons, List.reverse_cons,
      List.append_assoc, List.singleton_append]
    cases b with
    | pinned c =>
      have := parse_letter c (hp c (List.mem_cons_self _ _)) rp q
      simp only [block_text, block_piece]
      rw [this]
      exact ih hu' hp' _ true
    | unpinned n =>
      obtain ⟨hn1, hn2⟩ := hu n (List.mem_cons_self _ _)
      simp only [block_text, block_piece]
      rw [parse_from_append, parse_group S hS halpha]
      unfold run_quantifier
      by_cases h2 : n ≥ 2
      · rw [if_pos h2, parse_quantifier n hn2]
        exact ih hu' hp' _ false
      · have h1 : n = 1 := by omega
        rw [if_neg h2, parse_from_nil, h1]
        exact ih hu' hp' _ true

theorem compile_anchored (X : List Nat) (ps : List Piece) (q : Bool)
    (h : parse_from (some ⟨[⟨Atom.bol, 1⟩], Mode.top false⟩) X =
      some ⟨ps.reverse ++ [⟨Atom.bol, 1⟩], Mode.top q⟩) :
    regex_compile (codes "^" ++ X ++ codes "$") =
      some (⟨Atom.bol, 1⟩ :: ps ++ [⟨Atom.eol, 1⟩]) := by
  unfold regex_compile
  have e1 : codes "^" = [94] := by decide
  have e2 : codes "$" = [36] := by decide
  rw [e1, e2, List.append_assoc, List.singleton_append, parse_from_cons]
  have s1 : parse_char ⟨[], Mode.top false⟩ 94 = some ⟨[⟨Atom.bol, 1⟩], Mode.top false⟩ := rfl
  rw [s1, parse_from_append, h, parse_from_cons, parse_from_nil]
  have s2 : parse_char ⟨ps.reverse ++ [⟨Atom.bol, 1⟩], Mode.top q⟩ 36 =
      some ⟨⟨Atom.eol, 1⟩ :: (ps.reverse ++ [⟨Atom.bol, 1⟩]), Mode.top false⟩ := rfl
  rw [s2]
  simp

/-! ## Matching the pattern -/

theorem group_atom_accepts (S : List Nat) (hS : List.Chain' (· < ·) S) (c : Nat) :
    (group_atom S).accepts c = group_ok S c := by
  unfold group_atom group_ok group_items
  by_cases hne : S = []
  · subst hne
    simp [Atom.accepts, ClassItem.covers, is_alpha_char]
  · have h := (runs_items_spec S hS).2.2 c
    simp only [if_neg hne, Atom.accepts]
    by_cases hc : c ∈ S
    · have h1 : (((runs S).map run_items).flatten.any fun t => t.covers c) = true := by
        rw [List.any_eq_true]
        exact h.2 hc
      simp [h1, hc, hne]
    · have h1 : (((runs S).map run_items).flatten.any fun t => t.covers c) = false := by
        rw [Bool.eq_false_iff]
        intro h2
        rw [List.any_eq_true] at h2
        exact hc (h.1 h2)
      simp [h1, hc, hne]

theorem match_pieces_group (S : List Nat) (n : Nat) (ps : List Piece) (pos : Nat) (s : List Nat) :
    match_pieces (⟨group_atom S, n⟩ :: ps) pos s =
      (decide (n ≤ s.length) && (s.take n).all (group_atom S).accepts &&
        match_pieces ps (pos + n) (s.drop n)) := rfl

theorem match_pieces_char (k : Nat) (n : Nat) (ps : List Piece) (pos : Nat) (s : List Nat) :
    match_pieces (⟨Atom.char k, n⟩ :: ps) pos s =
      (decide (n ≤ s.length) && (s.take n).all (Atom.char k).accepts &&
        match_pieces ps (pos + n) (s.drop n)) := rfl

theorem match_pieces_group_succ (S : List Nat) (hS : List.Chain' (· < ·) S) (n : Nat)
    (ps : List Piece) (pos : Nat) (c : Nat) (cs : List Nat) :
    match_pieces (⟨group_atom S, n + 1⟩ :: ps) pos (c :: cs) =
      (group_ok S c && match_pieces (⟨group_atom S, n⟩ :: ps) (pos + 1) cs) := by
  rw [match_pieces_group, match_pieces_group, List.take_succ_cons, List.all_cons,
    List.drop_succ_cons, group_atom_accepts S hS c, List.length_cons]
  have e : pos + (n + 1) = pos + 1 + n := by omega
  rw [e]
  have e2 : decide (n + 1 ≤ cs.length + 1) = decide (n ≤ cs.length) := by
    simp only [Nat.add_le_add_iff_right]
  rw [e2]
  cases decide (n ≤ cs.length) <;> cases group_ok S c <;> simp

theorem match_pieces_group_nil (S : List Nat) (n : Nat) (ps : List Piece) (pos : Nat) :
    match_pieces (⟨group_atom S, n + 1⟩ :: ps) pos [] = false := by
  rw [match_pieces_group]
  simp

theorem match_pieces_group_zero (S : List Nat) (ps : List Piece) (pos : Nat) (s : List Nat) :
    match_pieces (⟨group_atom S, 0⟩ :: ps) pos s = match_pieces ps pos s := by
  rw [match_pieces_group]
  simp

theorem match_blocks (S : List Nat) (hS : List.Chain' (· < ·) S) (known : List Nat) :
    ∀ (pos : Nat) (s : List Nat),
      match_pieces ((blocks known).map (block_piece S) ++ [⟨Atom.eol, 1⟩]) pos s =
        matches_known S known s := by
  induction known with
  | nil =>
    intro pos s
    cases s <;> rfl
  | cons k ks ih =>
    intro pos s
    rw [blocks]
    by_cases hk : k = 42
    · rw [if_pos hk]
      match hb : blocks ks with
      | [] =>
        rw [hb] at ih
        simp only [List.map_cons, List.map_nil, block_piece, List.cons_append, List.nil_append]
          at ih ⊢
        cases s with
        | nil => rfl
        | cons c cs =>
          rw [match_pieces_group_succ S hS, match_pieces_group_zero, ih, matches_known, pos_ok,
            if_pos hk]
      | Block.pinned d :: bs =>
        rw [hb] at ih
        simp only [List.map_cons, block_piece, List.cons_append] at ih ⊢
        cases s with
        | nil => rfl
        | cons c cs =>
          rw [match_pieces_group_succ S hS, match_pieces_group_zero, ih, matches_known, pos_ok,
            if_pos hk]
      | Block.unpinned n :: bs =>
        rw [hb] at ih
        simp only [List.map_cons, block_piece, List.cons_append] at ih ⊢
        cases s with
        | nil =>
          rw [match_pieces_group_nil]
          rfl
        | cons c cs =>
          rw [match_pieces_group_succ S hS, ih, matches_known, pos_ok, if_pos hk]
    · rw [if_neg hk]
      simp only [List.map_cons, block_piece, List.cons_append]
      rw [match_pieces_char]
      cases s with
      | nil => rfl
      | cons c cs =>
        rw [matches_known, pos_ok, if_neg hk, ← ih (pos + 1) cs]
        simp [Atom.accepts]

theorem match_group_run (S : List Nat) (hS : List.Chain' (· < ·) S) (n : Nat) :
    ∀ (pos : Nat) (s : List Nat),
      match_pieces [⟨group_atom S, n⟩, ⟨Atom.eol, 1⟩] pos s =
        matches_known S (List.replicate n 42) s := by
  induction n with
  | zero =>
    intro pos s
    rw [match_pieces_group_zero]
    cases s <;> rfl
  | succ n ih =>
    intro pos s
    cases s with
    | nil =>
      rw [match_pieces_group_nil]
      rfl
    | cons c cs =>
      rw [match_pieces_group_succ S hS, ih, List.replicate_succ, matches_known, pos_ok,
        if_pos rfl]

theorem match_pieces_bol (ps : List Piece) (s : List Nat) :
    match_pieces (⟨Atom.bol, 1⟩ :: ps) 0 s = match_pieces ps 0 s := by
  rw [match_pieces]
  simp

theorem matches_known_iff (S : List Nat) (known : List Nat) :
    ∀ line, matches_known S known line = true ↔
      line.length = known.length ∧
        ∀ i, i < known.length → pos_ok S (known.getD i 0) (line.getD i 0) = true := by
  induction known with
  | nil =>
    intro line
    cases line with
    | nil => simp [matches_known]
    | cons c cs => simp [matches_known]
  | cons k ks ih =>
    intro line
    cases line with
    | nil => simp [matches_known]
    | cons c cs =>
      rw [matches_known, Bool.and_eq_true, ih cs]
      simp only [List.length_cons, Nat.add_right_cancel_iff]
      constructor
      · rintro ⟨h0, h1, h2⟩
        refine ⟨h1, ?_⟩
        intro i hi
        cases i with
        | zero => simpa using h0
        | succ j =>
          have := h2 j (by omega)
          simpa using this
      · rintro ⟨h1, h2⟩
        refine ⟨by simpa using h2 0 (by omega), h1, ?_⟩
        intro i hi
        have := h2 (i + 1) (by omega)
        simpa using this

theorem block_span_le (known : List Nat) :
    ∀ n, Block.unpinned n ∈ blocks known → n ≤ known.length := by
  intro n hn
  have h := congrArg List.length (blocks_positions known)
  rw [List.length_flatten, List.map_map] at h
  have hmem : (Block.unpinned n).positions.length ∈
      (blocks known).map (List.length ∘ Block.positions) :=
    List.mem_map.2 ⟨_, hn, rfl⟩
  have hle := List.single_le_sum (fun x _ => Nat.zero_le x) _ hmem
  simp only [Block.positions, List.length_replicate] at hle
  omega

theorem pinned_mem_known (known : List Nat) :
    ∀ c, Block.pinned c ∈ blocks known → c ∈ known := by
  intro c hc
  have h := blocks_positions known
  rw [← h]
  exact List.mem_flatten.2 ⟨_, List.mem_map.2 ⟨_, hc, rfl⟩, by simp [Block.positions]⟩

/-- The meaning of the pattern of the program: it compiles, and a line matches
it exactly when it matches the known-position array position by position. -/
theorem regex_semantics (S : List Nat) (wordLength : Nat) (known : List Nat) (numKnown : Nat)
    (hS : List.Chain' (· < ·) S) (halpha : ∀ c ∈ S, isalpha c = true)
    (hwl : wordLength ≤ 11) (hlen : known.length = wordLength)
    (hknown : ∀ c ∈ known, c = 42 ∨ is_alpha_char c = true)
    (hnum : numKnown = 0 → ∀ c ∈ known, c = 42) :
    ∃ re, regex_compile (regexString S wordLength known numKnown) = some re ∧
      ∀ line, regex_match line re = matches_known S known line := by
  by_cases h0 : numKnown = 0
  · have hrep : known = List.replicate wordLength 42 :=
      List.eq_replicate_iff.2 ⟨hlen, hnum h0⟩
    refine ⟨[⟨Atom.bol, 1⟩, ⟨group_atom S, wordLength⟩, ⟨Atom.eol, 1⟩], ?_, ?_⟩
    · unfold regexString build_regexString
      simp only [if_pos h0]
      apply compile_anchored _ [⟨group_atom S, wordLength⟩] false
      rw [parse_from_append, parse_group S hS halpha, parse_quantifier wordLength hwl]
      rfl
    · intro line
      unfold regex_match
      rw [match_pieces_bol, match_group_run S hS, hrep]
  · have hw := blocks_wellformed known
    obtain ⟨q', hq⟩ := parse_blocks S hS halpha (blocks known)
      (fun n hn => ⟨hw.2.1 n hn, by have := block_span_le known n hn; omega⟩)
      (fun c hc => by
        rcases hknown c (pinned_mem_known known c hc) with h | h
        · exact absurd h (hw.2.2 c hc)
        · exact h)
      [⟨Atom.bol, 1⟩] false
    refine ⟨⟨Atom.bol, 1⟩ :: (blocks known).map (block_piece S) ++ [⟨Atom.eol, 1⟩], ?_, ?_⟩
    · unfold regexString
      rw [build_regexString_eq_blocks _ _ _ _ (by omega) (by omega)]
      exact compile_anchored _ _ q' hq
    · intro line
      unfold regex_match
      rw [List.cons_append, match_pieces_bol, match_blocks S hS]

/-! ## The letter sets of the arguments -/

theorem mem_set_insert (c x : Nat) (l : List Nat) : x ∈ set_insert c l ↔ x = c ∨ x ∈ l := by
  induction l with
  | nil => simp [set_insert]
  | cons y ys ih =>
    rw [set_insert]
    split_ifs with h1 h2
    · simp
    · subst h2
      simp
    · rw [List.mem_cons, ih, List.mem_cons]
      tauto

theorem set_insert_pairwise (c : Nat) (l : List Nat) (h : List.Pairwise (· < ·) l) :
    List.Pairwise (· < ·) (set_insert c l) := by
  induction l with
  | nil => simp [set_insert]
  | cons y ys ih =>
    rw [List.pairwise_cons] at h
    rw [set_insert]
    split_ifs with h1 h2
    · rw [List.pairwise_cons]
      refine ⟨?_, List.pairwise_cons.2 h⟩
      intro x hx
      rcases List.mem_cons.1 hx with rfl | hx
      · exact h1
      · exact lt_trans h1 (h.1 x hx)
    · exact List.pairwise_cons.2 h
    · rw [List.pairwise_cons]
      refine ⟨?_, ih h.2⟩
      intro x hx
      rcases (mem_set_insert c x ys).1 hx with rfl | hx
      · omega
      · exact h.1 x hx

theorem letter_step_spec (letters arg : List Nat)
    (h : List.Pairwise (· < ·) letters ∧ ∀ c ∈ letters, isalpha c = true) :
    List.Pairwise (· < ·) (letter_step letters arg) ∧
      ∀ c ∈ letter_step letters arg, isalpha c = true := by
  unfold letter_step
  simp only []
  split_ifs with h1 h2
  · exact h
  · refine ⟨set_insert_pairwise _ _ h.1, ?_⟩
    intro c hc
    rcases (mem_set_insert _ _ _).1 hc with rfl | hc
    · exact h2
    · exact h.2 c hc
  · exact h

theorem foldl_letter_step_spec (args : List (List Nat)) :
    ∀ letters, (List.Pairwise (· < ·) letters ∧ ∀ c ∈ letters, isalpha c = true) →
      List.Pairwise (· < ·) (args.foldl letter_step letters) ∧
        ∀ c ∈ args.foldl letter_step letters, isalpha c = true := by
  induction args with
  | nil => intro letters h; exact h
  | cons a as ih =>
    intro letters h
    rw [List.foldl_cons]
    exact ih _ (letter_step_spec letters a h)

/-- The set built from an argument is in ascending order without repetition
and holds alphabetic characters only. -/
theorem letters_of_arg_spec (arg : List Nat) :
    List.Chain' (· < ·) (letters_of_arg arg) ∧ ∀ c ∈ letters_of_arg arg, isalpha c = true := by
  have h := foldl_letter_step_spec (split arg 44) [] ⟨List.Pairwise.nil, by simp⟩
  exact ⟨List.Pairwise.chain' h.1, h.2⟩

/-! ## The whole run -/

theorem filterWords_subset (wordList : List (List Nat)) (wordLength : Nat)
    (includeArg : List Nat) :
    ∀ w ∈ filterWordsWithoutIncludedLetters wordList wordLength includeArg, w ∈ wordList := by
  intro w hw
  unfold filterWordsWithoutIncludedLetters at hw
  simp only [] at hw
  split_ifs at hw with h1 h2 h3
  · exact hw
  · exact hw
  · rw [foldl_push_eq_filter, List.nil_append] at hw
    exact (List.mem_filter.1 hw).1
  · exact hw

theorem filterWords_too_many (wordList : List (List Nat)) (wordLength : Nat)
    (includeArg : List Nat) (h : wordLength < (letters_of_arg includeArg).length) :
    filterWordsWithoutIncludedLetters wordList wordLength includeArg = wordList := by
  unfold filterWordsWithoutIncludedLetters
  simp only []
  split_ifs with h1 h2 h3
  · rfl
  · rfl
  · exact absurd (Or.inr h) h2
  · rfl

/-- What a run that ends with a result list went through: the validations
passed, the `-known` argument was read, the pattern compiled, and the result
is the include filter applied to the lines that match the pattern. -/
theorem regex_main_some {wordLength : Nat} {path excludeArg includeArg knownArg : List Nat}
    {wordFile out : List (List Nat)}
    (h : regex_main wordLength path excludeArg includeArg knownArg wordFile = some out) :
    (4 ≤ wordLength ∧ wordLength ≤ 11) ∧ (letters_of_arg excludeArg).length < 26 ∧
      ∃ known numKnown re,
        known_positions wordLength knownArg = some (known, numKnown) ∧
        regex_compile (regexString (letters_of_arg excludeArg) wordLength known numKnown) =
          some re ∧
        out = filterWordsWithoutIncludedLetters (matching_lines wordLength re wordFile)
          wordLength includeArg := by
  unfold regex_main MIN_WORD_LENGTH MAX_WORD_LENGTH at h
  simp only [] at h
  split_ifs at h with h1 h2 h3 h4
  split at h
  · exact Option.noConfusion h
  · rename_i known numKnown hk
    split at h
    · exact Option.noConfusion h
    · rename_i re hre
      refine ⟨by omega, by omega, known, numKnown, re, hk, hre, ?_⟩
      exact (Option.some.inj h).symm

/-- Every line of the result matches the known-position array position by
position. -/
theorem regex_main_matches_known {wordLength : Nat}
    {path excludeArg includeArg knownArg : List Nat} {wordFile out : List (List Nat)}
    {known : List Nat} {numKnown : Nat}
    (hrun : regex_main wordLength path excludeArg includeArg knownArg wordFile = some out)
    (hk : known_positions wordLength knownArg = some (known, numKnown)) :
    ∀ line ∈ out, matches_known (letters_of_arg excludeArg) known line = true := by
  obtain ⟨hwl, -, known', numKnown', re, hk', hre, hout⟩ := regex_main_some hrun
  rw [hk] at hk'
  obtain ⟨rfl, rfl⟩ := Prod.mk.inj (Option.some.inj hk')
  obtain ⟨hlen, hknown, hnum⟩ := known_positions_spec hk
  obtain ⟨hS, halpha⟩ := letters_of_arg_spec excludeArg
  obtain ⟨re', hre', hsem⟩ := regex_semantics (letters_of_arg excludeArg) wordLength known
    numKnown hS halpha hwl.2 hlen hknown hnum
  rw [hre] at hre'
  obtain rfl := Option.some.inj hre'
  intro line hline
  rw [hout] at hline
  have hm := filterWords_subset _ _ _ line hline
  unfold matching_lines at hm
  have := (List.mem_filter.1 hm).2
  rw [Bool.and_eq_true] at this
  rw [← hsem line]
  exact this.2

theorem mem_filterWords_iff (wordList : List (List Nat)) (wordLength : Nat)
    (includeArg : List Nat) (h4 : 4 ≤ wordLength)
    (h2 : (letters_of_arg includeArg).length ≤ wordLength) (w : List Nat) :
    w ∈ filterWordsWithoutIncludedLetters wordList wordLength includeArg ↔
      w ∈ wordList ∧ ∀ c ∈ letters_of_arg includeArg, c ∈ w := by
  by_cases h0 : letters_of_arg includeArg = []
  · have : filterWordsWithoutIncludedLetters wordList wordLength includeArg = wordList := by
      unfold filterWordsWithoutIncludedLetters
      simp only []
      split_ifs with h1 h3 h5
      · rfl
      · rfl
      · exact absurd (Or.inl h0) h3
      · rfl
    rw [this, h0]
    simp
  · unfold filterWordsWithoutIncludedLetters
    simp only []
    have hc2 : ¬ (letters_of_arg includeArg = [] ∨
        (letters_of_arg includeArg).length > wordLength) := by
      rintro (h | h)
      · exact h0 h
      · omega
    by_cases hc1 : wordList = [] ∨ wordLength < MIN_WORD_LENGTH ∨ includeArg = []
    · rw [if_pos hc1]
      rcases hc1 with h | h | h
      · subst h
        simp
      · unfold MIN_WORD_LENGTH at h
        omega
      · subst h
        exact absurd rfl h0
    · rw [if_neg hc1, if_neg hc2, foldl_push_eq_filter, List.nil_append]
      split_ifs with hlt
      · rw [List.mem_filter, wordIsValid_iff]
      · have e := filter_eq_self_of_length_ge
          (fun word => wordIsValid word (letters_of_arg includeArg)) wordList hlt
        constructor
        · intro hw
          rw [← e] at hw
          rw [List.mem_filter, wordIsValid_iff] at hw
          exact hw
        · intro hw
          exact hw.1

theorem mem_matching_lines_iff (wordLength : Nat) (re : List Piece) (wordFile : List (List Nat))
    (line : List Nat) :
    line ∈ matching_lines wordLength re wordFile ↔
      (∃ raw ∈ wordFile, raw.map tolower = line) ∧ line.length = wordLength ∧
        regex_match line re = true := by
  unfold matching_lines
  rw [List.mem_filter, List.mem_map, Bool.and_eq_true, decide_eq_true_eq]

/-- C19: on every line of five lowercase letters the regex program (match of
the pattern, then `filterWordsWithoutIncludedLetters`) and the C scan agree,
for every constraint set at word length 5 in which at most five letters are
required (b) and no pinned letter is excluded (d); (a) and (c) are not needed.
The constraint set is given to each program in its own form: the excluded and
required masks of the C program hold the letters of the sets of the regex
program, and the C array pins the same letters (`'_'` for `'*'`). -/
theorem regex_agrees_with_c_scan_on_letters (excludeArg includeArg knownArg : List Nat)
    (known : List Nat) (numKnown : Nat) (excluded required : Nat) (known_c line : List Nat)
    (hk : known_positions 5 knownArg = some (known, numKnown))
    (hex : ∀ c, in_mask excluded c ↔ c ∈ letters_of_arg excludeArg)
    (hreq : ∀ c, in_mask required c ↔ c ∈ letters_of_arg includeArg)
    (hb : (letters_of_arg includeArg).length ≤ 5)
    (hkc : ∀ i, i < 5 → known_c.getD i 0 = if known.getD i 0 = 42 then 95 else known.getD i 0)
    (hd : ∀ c ∈ known, c ≠ 42 → c ∉ letters_of_arg excludeArg)
    (hline : line.length = 5 ∧ ∀ c ∈ line, 97 ≤ c ∧ c ≤ 122) :
    ∃ re, regex_compile (regexString (letters_of_arg excludeArg) 5 known numKnown) = some re ∧
      (line ∈ filterWordsWithoutIncludedLetters (matching_lines 5 re [line]) 5 includeArg ↔
        c_accepts excluded required known_c line = true) := by
  obtain ⟨hlen, hknown, hnum⟩ := known_positions_spec hk
  obtain ⟨hS, halpha⟩ := letters_of_arg_spec excludeArg
  obtain ⟨re, hre, hsem⟩ := regex_semantics (letters_of_arg excludeArg) 5 known
    numKnown hS halpha (by decide) hlen hknown hnum
  refine ⟨re, hre, ?_⟩
  have hlow : line.map tolower = line := by
    conv_rhs => rw [← List.map_id line]
    apply List.map_congr_left
    intro c hc
    have := hline.2 c hc
    unfold tolower
    rw [if_neg (by omega)]
    rfl
  rw [mem_filterWords_iff _ _ _ (by decide) hb, mem_matching_lines_iff, hsem, matches_known_iff,
    c_accepts_iff_letters excluded required known_c line hline.1, hlen]
  constructor
  · rintro ⟨⟨-, -, -, hpos⟩, hinc⟩
    refine ⟨hline.2, ?_, ?_, ?_⟩
    · intro i hi h95
      have hp := hpos i hi
      rw [hkc i hi] at h95 ⊢
      unfold pos_ok at hp
      split_ifs at h95 ⊢ with h42
      · exact absurd rfl h95
      · rw [if_neg h42] at hp
        simpa using hp
    · intro c hc hm
      obtain ⟨i, hi, rfl⟩ := exists_getD_of_mem hc
      rw [hline.1] at hi
      have hp := hpos i hi
      have hcS := (hex _).1 hm
      unfold pos_ok group_ok at hp
      split_ifs at hp with h42 he
      · rw [he] at hcS
        simp at hcS
      · simp only [decide_eq_true_eq] at hp
        exact hp hcS
      · simp only [decide_eq_true_eq] at hp
        rw [hp] at hcS
        exact hd _ (getD_mem_of_lt (l := known) (i := i) (by omega)) h42 hcS
    · intro c hc
      exact hinc c ((hreq c).1 hc)
  · rintro ⟨hal, hpin, hexc, hr⟩
    refine ⟨⟨⟨line, List.mem_singleton.2 rfl, hlow⟩, hline.1, hline.1, ?_⟩, ?_⟩
    · intro i hi
      have hm : line.getD i 0 ∈ line := getD_mem_of_lt (by omega)
      unfold pos_ok group_ok
      by_cases h42 : known.getD i 0 = 42
      · rw [if_pos h42]
        split_ifs with he
        · exact (is_alpha_char_iff _).2 (hal _ hm)
        · simp only [decide_eq_true_eq]
          intro hcS
          exact hexc _ hm ((hex _).2 hcS)
      · rw [if_neg h42]
        simp only [decide_eq_true_eq]
        have := hpin i hi
        rw [hkc i hi, if_neg h42] at this
        apply this
        intro h95
        rcases hknown _ (getD_mem_of_lt (l := known) (i := i) (by omega)) with h | h
        · exact h42 h
        · rw [is_alpha_char_iff] at h
          omega
    · intro c hc
      exact hr c ((hreq c).2 hc)

/-! ## The claims about the whole run of the regex program -/

/-- C7, evaluated at its failing input: with `q` excluded and nothing pinned
the pattern is `^[^q]{5}$`, and the line `co-op` of the word file matches it
and is printed, although its third character `-` is not a letter. With nothing
excluded the letter group is `[a-z]` and the same line is rejected. -/
theorem regex_negated_group_accepts_non_letter :
    regexString (letters_of_arg (codes "q")) 5 (codes "*****") 0 = codes "^[^q]{5}$" ∧
      regex_main 5 [] (codes "q") [] [] [codes "co-op"] = some [codes "co-op"] ∧
      (codes "co-op").getD 2 0 = 45 ∧ is_alpha_char 45 = false ∧
      regexString (letters_of_arg []) 5 (codes "*****") 0 = codes "^[a-z]{5}$" ∧
      regex_main 5 [] [] (codes "c") [] [codes "co-op"] = some [] := by
  decide

/-- C3, evaluated at its failing input: the constraint set with `q` excluded,
nothing required and nothing pinned satisfies (a)-(d); on the five-character
line `co-op` the regex program accepts and the C scan rejects. -/
theorem regex_and_c_scan_differ_on_non_letter :
    regex_main 5 [] (codes "q") [] [] [codes "co-op"] = some [codes "co-op"] ∧
      c_accepts (2 ^ 16) 0 (codes "_____") (codes "co-op") = false ∧
      (codes "co-op").length = 5 ∧ (codes "co-op").map tolower = codes "co-op" := by
  decide

/-- C8 as stated fails: with `-exclude o -known 3o` the line `abode` is
accepted, and the excluded letter `o` occurs in it, at the pinned position. -/
theorem regex_main_accepts_excluded_pinned_letter :
    regex_main 5 [] (codes "o") [] (codes "3o") [codes "abode"] = some [codes "abode"] ∧
      letters_of_arg (codes "o") = [111] ∧ (codes "abode").getD 2 0 = 111 := by
  decide

/-- C8, amended: in every run of the regex program that ends with a result
list, every line of the list has the word length, holds no excluded letter at
any position that is not pinned, and holds the pinned letter at every pinned
position (whether or not that letter is excluded). -/
theorem regex_main_unpinned_not_excluded (wordLength : Nat)
    (path excludeArg includeArg knownArg : List Nat) (wordFile out : List (List Nat))
    (known : List Nat) (numKnown : Nat)
    (hrun : regex_main wordLength path excludeArg includeArg knownArg wordFile = some out)
    (hk : known_positions wordLength knownArg = some (known, numKnown)) :
    ∀ line ∈ out, line.length = wordLength ∧
      ∀ i, i < wordLength →
        (known.getD i 0 = 42 → line.getD i 0 ∉ letters_of_arg excludeArg) ∧
        (known.getD i 0 ≠ 42 → line.getD i 0 = known.getD i 0) := by
  intro line hline
  have hm := regex_main_matches_known hrun hk line hline
  obtain ⟨hlen, -, -⟩ := known_positions_spec hk
  rw [matches_known_iff, hlen] at hm
  refine ⟨hm.1, ?_⟩
  intro i hi
  have := hm.2 i hi
  unfold pos_ok group_ok at this
  constructor
  · intro h42
    rw [if_pos h42] at this
    split_ifs at this with he
    · rw [he]
      simp
    · simpa using this
  · intro h42
    rw [if_neg h42] at this
    simpa using this

/-- C8, amended, on the run with `-exclude o -known 3o` over the lines `abode`
and `crane`: the accepted line `abode` has length 5, its first character is not
excluded, and its third character is the pinned `o`. -/
theorem regex_main_unpinned_not_excluded_witness :
    regex_main 5 [] (codes "o") [] (codes "3o") [codes "abode", codes "crane"] =
        some [codes "abode"] ∧
      known_positions 5 (codes "3o") = some (codes "**o**", 1) ∧
      (codes "abode").length = 5 ∧
      (codes "abode").getD 0 0 ∉ letters_of_arg (codes "o") ∧
      (codes "abode").getD 2 0 = (codes "**o**").getD 2 0 := by
  have h := regex_main_unpinned_not_excluded 5 [] (codes "o") [] (codes "3o")
    [codes "abode", codes "crane"] [codes "abode"] (codes "**o**") 1 (by decide) (by decide)
    (codes "abode") (by decide)
  exact ⟨by decide, by decide, h.1, (h.2 0 (by decide)).1 (by decide),
    (h.2 2 (by decide)).2 (by decide)⟩

/-- C10 as stated fails: `-include a,b,c,d,e,f` names six letters at word
length 5; the run is not rejected, and `crane` is reported. -/
theorem regex_main_six_included_letters_reports :
    regex_main 5 [] [] (codes "a,b,c,d,e,f") [] [codes "crane"] = some [codes "crane"] ∧
      (letters_of_arg (codes "a,b,c,d,e,f")).length = 6 := by
  decide

/-- C10, amended: when the `-include` list names more letters than the word
length and the other validations pass, the run is not rejected and the include
filter is skipped: the result is the list of the lines that match the pattern. -/
theorem regex_main_too_many_included (wordLength : Nat)
    (path excludeArg includeArg knownArg : List Nat) (wordFile : List (List Nat))
    (known : List Nat) (numKnown : Nat)
    (hwl : 4 ≤ wordLength ∧ wordLength ≤ 11) (hpath : wordLength = 5 ∨ path = [])
    (hex : (letters_of_arg excludeArg).length < 26)
    (hk : known_positions wordLength knownArg = some (known, numKnown))
    (hmany : wordLength < (letters_of_arg includeArg).length) :
    ∃ re, regex_compile (regexString (letters_of_arg excludeArg) wordLength known numKnown) =
        some re ∧
      regex_main wordLength path excludeArg includeArg knownArg wordFile =
        some (matching_lines wordLength re wordFile) := by
  obtain ⟨hlen, hknown, hnum⟩ := known_positions_spec hk
  obtain ⟨hS, halpha⟩ := letters_of_arg_spec excludeArg
  obtain ⟨re, hre, -⟩ := regex_semantics (letters_of_arg excludeArg) wordLength known
    numKnown hS halpha hwl.2 hlen hknown hnum
  refine ⟨re, hre, ?_⟩
  have hinc : includeArg ≠ [] := by
    intro h0
    rw [h0] at hmany
    exact absurd hmany (Nat.not_lt_zero _)
  unfold regex_main MIN_WORD_LENGTH MAX_WORD_LENGTH
  have c1 : ¬ (wordLength < 4 ∨ wordLength > 11) := by omega
  have c2 : ¬ (wordLength ≠ 5 ∧ path ≠ []) := by
    rintro ⟨h1, h2⟩
    rcases hpath with h | h
    · exact h1 h
    · exact h2 h
  have c3 : ¬ (excludeArg = [] ∧ includeArg = [] ∧ knownArg = []) := fun h => hinc h.2.1
  have c4 : ¬ ((letters_of_arg excludeArg).length ≥ 26) := by omega
  simp only [if_neg c1, if_neg c2, if_neg c3, if_neg c4, hk, hre]
  rw [filterWords_too_many _ _ _ hmany]

/-- C10, amended, on the run with `-include a,b,c,d,e,f` over the lines
`crane` and `blast`: both are reported. -/
theorem regex_main_too_many_included_witness :
    ∃ re, regex_compile (regexString (letters_of_arg []) 5 (codes "*****") 0) = some re ∧
      regex_main 5 [] [] (codes "a,b,c,d,e,f") [] [codes "crane", codes "blast"] =
        some (matching_lines 5 re [codes "crane", codes "blast"]) :=
  regex_main_too_many_included 5 [] [] (codes "a,b,c,d,e,f") [] [codes "crane", codes "blast"]
    (codes "*****") 0 ⟨by decide, by decide⟩ (Or.inl rfl) (by decide) (by decide) (by decide)

/-! ## `get_population_count` -/

theorem ones_succ (w n : Nat) :
    ones (w + 1) n = (if n % 2 = 1 then 1 else 0) + ones w (n / 2) := by
  unfold ones
  rw [List.range_succ_eq_map, List.filter_cons, List.filter_map]
  have e : ((fun i => n.testBit i) ∘ Nat.succ) = fun i => (n / 2).testBit i := by
    funext i
    simp only [Function.comp, Nat.testBit_succ]
  rw [e, Nat.testBit_zero]
  by_cases h : n % 2 = 1
  · simp only [h, decide_True, if_true, List.length_cons, List.length_map]
    omega
  · simp only [h, decide_False, Bool.false_eq_true, if_false, List.length_map]
    omega

theorem ones_le (w n : Nat) : ones w n ≤ w := by
  unfold ones
  have := List.length_filter_le (fun i => n.testBit i) (List.range w)
  rwa [List.length_range] at this

theorem ones_zero_right (w : Nat) : ones w 0 = 0 := by
  unfold ones
  simp

theorem and_pred_mod_two (n : Nat) : (n &&& (n - 1)) % 2 = 0 := by
  have h := Nat.testBit_and n (n - 1) 0
  simp only [Nat.testBit_zero] at h
  by_cases h1 : n % 2 = 1
  · have h2 : ¬ ((n - 1) % 2 = 1) := by omega
    simp only [h1, h2, decide_True, decide_False, Bool.and_false, decide_eq_false_iff_not] at h
    omega
  · simp only [h1, decide_False, Bool.false_and, decide_eq_false_iff_not] at h
    omega

/-- The step of the loop clears exactly one `1` bit. -/
theorem ones_and_pred (w : Nat) :
    ∀ n, 0 < n → n < 2 ^ w → ones w (n &&& (n - 1)) + 1 = ones w n := by
  induction w with
  | zero =>
    intro n h0 h1
    simp at h1
    omega
  | succ w ih =>
    intro n h0 h1
    rw [ones_succ, ones_succ, and_pred_mod_two, Nat.and_div_two]
    simp only [Nat.zero_ne_one, if_false, Nat.zero_add]
    by_cases hodd : n % 2 = 1
    · have e : (n - 1) / 2 = n / 2 := by omega
      rw [e, Nat.and_self, if_pos hodd]
      omega
    · have e : (n - 1) / 2 = n / 2 - 1 := by omega
      have hpos : 0 < n / 2 := by omega
      have hlt : n / 2 < 2 ^ w := by
        rw [Nat.pow_succ] at h1
        omega
      rw [e, if_neg hodd, Nat.zero_add]
      exact ih (n / 2) hpos hlt

theorem population_count_loop_eq (w : Nat) :
    ∀ (fuel num count : Nat), num < 2 ^ w → ones w num ≤ fuel →
      population_count_loop fuel num count = some (count + ones w num) := by
  intro fuel
  induction fuel with
  | zero =>
    intro num count hlt hle
    by_cases h0 : num = 0
    · subst h0
      simp [population_count_loop, ones_zero_right]
    · have := ones_and_pred w num (by omega) hlt
      omega
  | succ fuel ih =>
    intro num count hlt hle
    by_cases h0 : num = 0
    · subst h0
      simp [population_count_loop, ones_zero_right]
    · have hstep := ones_and_pred w num (by omega) hlt
      have hlt' : num &&& (num - 1) < 2 ^ w :=
        lt_of_le_of_lt Nat.and_le_left hlt
      rw [population_count_loop, if_pos h0, ih _ _ hlt' (by omega)]
      congr 1
      omega

theorem get_population_count_some (num : Nat) (h : num < 2 ^ 32) :
    get_population_count num = some (ones 32 num) := by
  unfold get_population_count
  rw [population_count_loop_eq 32 32 num 0 h (ones_le 32 num), Nat.zero_add]

/-- C14: for every 32-bit `num` the loop of `get_population_count` ends, within
the 32 iterations of its fuel and with any larger fuel alike, and the value
returned is the number of `1` bits of `num`. -/
theorem get_population_count_counts_ones (num : Nat) (h : num < 2 ^ 32) :
    get_population_count num = some (ones 32 num) ∧
      ∀ fuel, 32 ≤ fuel → population_count_loop fuel num 0 = some (ones 32 num) := by
  have hle := ones_le 32 num
  constructor
  · unfold get_population_count
    rw [population_count_loop_eq 32 32 num 0 h hle, Nat.zero_add]
  · intro fuel hf
    rw [population_count_loop_eq 32 fuel num 0 h (by omega), Nat.zero_add]

/-- C14 at `num = 0xF0F0F0F1`, which has 17 bits set. -/
theorem get_population_count_counts_ones_witness :
    get_population_count 0xF0F0F0F1 = some 17 := by
  rw [(get_population_count_counts_ones 0xF0F0F0F1 (by decide)).1]
  decide

/-! ## The validation of the sets -/

theorem ones_add_of_lt (k : Nat) (w : Nat) : ∀ n, n < 2 ^ w → ones (w + k) n = ones w n := by
  induction w with
  | zero =>
    intro n h
    have h0 : n = 0 := by simpa using h
    subst h0
    rw [ones_zero_right, ones_zero_right]
  | succ w ih =>
    intro n h
    have e : w + 1 + k = (w + k) + 1 := by omega
    have hlt : n / 2 < 2 ^ w := by
      rw [Nat.pow_succ] at h
      omega
    rw [e, ones_succ, ones_succ, ih (n / 2) hlt]

theorem ones_eq_bitset_count {n : Nat} (h : n < 2 ^ 26) : ones 32 n = bitset_count n :=
  ones_add_of_lt 6 26 n h

theorem bitset_count_ge_iff (n : Nat) :
    bitset_count n ≥ 26 ↔ ∀ c, 97 ≤ c → c ≤ 122 → in_mask n c := by
  have hle := ones_le 26 n
  have hfull : bitset_count n = 26 ↔ ∀ a ∈ List.range 26, n.testBit a = true := by
    unfold bitset_count
    have := @List.filter_length_eq_length Nat (fun i => n.testBit i) (List.range 26)
    rw [List.length_range] at this
    exact this
  constructor
  · intro h c h1 h2
    have h26 : bitset_count n = 26 := by
      have : bitset_count n = ones 26 n := rfl
      omega
    exact ⟨h1, hfull.1 h26 (c - 97) (List.mem_range.2 (by omega))⟩
  · intro h
    have : bitset_count n = 26 := by
      rw [hfull]
      intro a ha
      have ha' := List.mem_range.1 ha
      have := (h (97 + a) (by omega) (by omega)).2
      simpa using this
    omega

theorem and_ne_zero_iff (e r : Nat) :
    e &&& r ≠ 0 ↔ ∃ c, in_mask e c ∧ in_mask r c := by
  constructor
  · intro h
    obtain ⟨i, hi⟩ := Nat.ne_zero_implies_bit_true h
    rw [Nat.testBit_and, Bool.and_eq_true] at hi
    exact ⟨97 + i, ⟨by omega, by simpa using hi.1⟩, ⟨by omega, by simpa using hi.2⟩⟩
  · rintro ⟨c, ⟨-, h1⟩, ⟨-, h2⟩⟩ h0
    have := Nat.testBit_and e r (c - 97)
    rw [h0, h1, h2] at this
    simp at this

theorem set_validation_fails_iff (e r : Nat) :
    set_validation_fails e r = true ↔ sets_rejected e r := by
  unfold set_validation_fails sets_rejected
  rw [← bitset_count_ge_iff, ← and_ne_zero_iff]
  by_cases h1 : bitset_count e ≥ 26
  · simp [h1]
  · by_cases h2 : bitset_count r > 5
    · simp [h1, h2]
    · by_cases h3 : e &&& r ≠ 0
      · simp only [if_neg h1, if_neg h2, if_pos h3, true_iff]
        exact Or.inr (Or.inr h3)
      · simp only [if_neg h1, if_neg h2, if_neg h3, Bool.false_eq_true, false_iff]
        rintro (h | h | h)
        · exact h1 h
        · exact h2 h
        · exact h3 h

theorem c_validation_fails_eq (e r : Nat) (he : e < 2 ^ 26) (hr : r < 2 ^ 26) :
    c_validation_fails e r = some (set_validation_fails e r) := by
  have he32 : e < 2 ^ 32 := lt_of_lt_of_le he (by norm_num)
  have hr32 : r < 2 ^ 32 := lt_of_lt_of_le hr (by norm_num)
  unfold c_validation_fails set_validation_fails WORDLE_WORD_LEN
  rw [get_population_count_some e he32, get_population_count_some r hr32,
    ones_eq_bitset_count he, ones_eq_bitset_count hr]
  simp only []
  split_ifs <;> rfl

/-- C11: on parsed sets (26-bit masks), the validation of the C program and the
validation of the bitset program fail if and only if the excluded set holds all
26 letters, or the required set holds more than 5 letters, or the two sets
share a letter; an excluded set of 25 letters (`a` to `y`) with the disjoint
required set `{z}` passes both. -/
theorem c_and_set_validation_spec (excluded required : Nat) (he : excluded < 2 ^ 26)
    (hr : required < 2 ^ 26) :
    (c_validation_fails excluded required = some true ↔ sets_rejected excluded required) ∧
    (c_validation_fails excluded required = some false ↔ ¬ sets_rejected excluded required) ∧
    (set_validation_fails excluded required = true ↔ sets_rejected excluded required) ∧
    bitset_count (2 ^ 25 - 1) = 25 ∧
    c_validation_fails (2 ^ 25 - 1) (2 ^ 25) = some false ∧
    set_validation_fails (2 ^ 25 - 1) (2 ^ 25) = false := by
  have h := set_validation_fails_iff excluded required
  rw [c_validation_fails_eq excluded required he hr]
  refine ⟨?_, ?_, h, by decide, by decide, by decide⟩
  · rw [← h]
    simp
  · rw [← h]
    simp

/-- C11 at the excluded set `a..y` and the required set `{z}`: the validation
passes, and the sets are not rejected. -/
theorem c_and_set_validation_spec_witness :
    c_validation_fails (2 ^ 25 - 1) (2 ^ 25) = some false ∧
      ¬ sets_rejected (2 ^ 25 - 1) (2 ^ 25) := by
  have h := c_and_set_validation_spec (2 ^ 25 - 1) (2 ^ 25) (by decide) (by decide)
  exact ⟨h.2.2.2.2.1, h.2.1.1 h.2.2.2.2.1⟩

/-! ## The arguments of the bitset program -/

/-- C12, evaluated at its failing input: for the parameter `A` the token is one
alphabetic character, `pos` is `'A' - 'a'` in `std::size_t`, far above 25, and
`std::bitset::set` throws `std::out_of_range`; the function returns no set.
For the parameter `a` the result is the set `{a}`. -/
theorem set_get_letters_uppercase_throws :
    isalpha 65 = true ∧ (65 + 2 ^ 64 - 97) % 2 ^ 64 ≥ 26 ∧
      set_get_letters_from_param (codes "A") = none ∧
      set_get_letters_from_param (codes "b,A") = none ∧
      set_get_letters_from_param (codes "a") = some (2 ^ 0) := by
  decide

theorem known_token_unique {d d' : Nat} {arg : List Nat} (h : known_token d arg = true)
    (h' : known_token d' arg = true) : d = d' := by
  unfold known_token at h h'
  simp only [Bool.and_eq_true, decide_eq_true_eq] at h h'
  omega

theorem set_known_step_cases (kp arg : List Nat) :
    (set_known_step kp arg = kp ∧ ∀ d, 1 ≤ d → d ≤ 5 → known_token d arg = false) ∨
      ∃ d, 1 ≤ d ∧ d ≤ 5 ∧ known_token d arg = true ∧
        set_known_step kp arg = kp.set (d - 1) (arg.getD 1 0) := by
  unfold set_known_step
  simp only []
  by_cases h1 : arg.length ≠ 2
  · left
    rw [if_pos h1]
    refine ⟨rfl, ?_⟩
    intro d _ _
    unfold known_token
    simp only [Bool.and_eq_false_imp, Bool.and_eq_true, decide_eq_true_eq]
    intro h
    exact absurd h.1 h1
  · rw [if_neg h1]
    by_cases h2 : (!is_digit (arg.getD 0 0)) = true ∨ arg.getD 0 0 < 49 ∨ arg.getD 0 0 > 53
    · left
      rw [if_pos h2]
      refine ⟨rfl, ?_⟩
      intro d hd1 hd5
      unfold known_token
      simp only [Bool.and_eq_false_imp, Bool.and_eq_true, decide_eq_true_eq]
      intro h
      exfalso
      rcases h2 with h2 | h2 | h2
      · unfold is_digit at h2
        simp only [Bool.not_eq_true', Bool.and_eq_false_imp, decide_eq_true_eq,
          decide_eq_false_iff_not] at h2
        have := h2 (by omega)
        omega
      · omega
      · omega
    · rw [if_neg h2]
      by_cases h3 : (!isalpha (arg.getD 1 0)) = true
      · left
        rw [if_pos h3]
        refine ⟨rfl, ?_⟩
        intro d _ _
        unfold known_token
        simp only [Bool.not_eq_true'] at h3
        rw [h3]
        simp
      · right
        rw [if_neg h3]
        simp only [Bool.not_eq_true', Bool.not_eq_false] at h3
        have h4 : 49 ≤ arg.getD 0 0 ∧ arg.getD 0 0 ≤ 53 := by
          constructor
          · by_contra hc
            exact h2 (Or.inr (Or.inl (by omega)))
          · by_contra hc
            exact h2 (Or.inr (Or.inr (by omega)))
        refine ⟨arg.getD 0 0 - 48, by omega, by omega, ?_, rfl⟩
        unfold known_token
        simp only [Bool.and_eq_true, decide_eq_true_eq]
        exact ⟨⟨by omega, by omega⟩, h3⟩

theorem getD_set_self (l : List Nat) (i x : Nat) (h : i < l.length) :
    (l.set i x).getD i 0 = x := by
  rw [List.getD_eq_getElem?_getD, List.getElem?_set_self h]
  rfl

theorem getD_set_other (l : List Nat) (i j x : Nat) (h : i ≠ j) :
    (l.set i x).getD j 0 = l.getD j 0 := by
  rw [List.getD_eq_getElem?_getD, List.getD_eq_getElem?_getD, List.getElem?_set_ne h]

theorem set_known_step_length (kp arg : List Nat) :
    (set_known_step kp arg).length = kp.length := by
  rcases set_known_step_cases kp arg with ⟨h, -⟩ | ⟨d, -, -, -, h⟩
  · rw [h]
  · rw [h, List.length_set]

theorem foldl_set_known_step (knownArgs : List (List Nat)) :
    ∀ init : List Nat, init.length = 5 →
      (knownArgs.foldl set_known_step init).length = 5 ∧
      ∀ d, 1 ≤ d → d ≤ 5 →
        (knownArgs.foldl set_known_step init).getD (d - 1) 0 =
          match (knownArgs.filter (known_token d)).getLast? with
          | some arg => arg.getD 1 0
          | none => init.getD (d - 1) 0 := by
  induction knownArgs with
  | nil =>
    intro init h
    exact ⟨h, fun d _ _ => rfl⟩
  | cons t ts ih =>
    intro init hinit
    have hlen : (set_known_step init t).length = 5 := by
      rw [set_known_step_length, hinit]
    obtain ⟨ih1, ih2⟩ := ih (set_known_step init t) hlen
    rw [List.foldl_cons]
    refine ⟨ih1, ?_⟩
    intro d hd1 hd5
    rw [ih2 d hd1 hd5, List.filter_cons]
    by_cases ht : known_token d t = true
    · rw [if_pos ht]
      cases hF : ts.filter (known_token d) with
      | nil =>
        simp only [List.getLast?_nil, List.getLast?_singleton]
        rcases set_known_step_cases init t with ⟨-, h⟩ | ⟨d', hd1', hd5', ht', h⟩
        · rw [h d hd1 hd5] at ht
          exact absurd ht Bool.false_ne_true
        · have := known_token_unique ht ht'
          subst this
          rw [h, getD_set_self _ _ _ (by omega)]
      | cons a F =>
        rw [List.getLast?_cons_cons]
        obtain ⟨x, hx⟩ : ∃ x, (a :: F).getLast? = some x :=
          ⟨_, List.getLast?_eq_getLast _ (List.cons_ne_nil a F)⟩
        rw [hx]
    · rw [if_neg ht]
      cases hL : (ts.filter (known_token d)).getLast? with
      | some arg => rfl
      | none =>
        simp only []
        rcases set_known_step_cases init t with ⟨h, -⟩ | ⟨d', hd1', hd5', ht', h⟩
        · rw [h]
        · have hne : d' - 1 ≠ d - 1 := by
            intro he
            have : d' = d := by omega
            subst this
            exact ht ht'
          rw [h, getD_set_other _ _ _ _ hne]

/-- C17: for every list of `-known` tokens the parser of the bitset program
yields an array of 5 elements in which position `d - 1` holds the letter of the
last well-formed token for the digit `d` (`d` from 1 to 5, followed by one
alphabetic character), and `'*'` when there is none; a token that is well
formed for no digit leaves the array as it is. -/
theorem set_known_loop_spec (knownArgs : List (List Nat)) :
    (set_known_loop knownArgs).length = 5 ∧
      (∀ d, 1 ≤ d → d ≤ 5 →
        (set_known_loop knownArgs).getD (d - 1) 0 = last_known_letter d knownArgs) ∧
      (∀ (knownPositions arg : List Nat),
        (∀ d, 1 ≤ d → d ≤ 5 → known_token d arg = false) →
          set_known_step knownPositions arg = knownPositions) ∧
      (∀ knownArg, set_known_positions knownArg = set_known_loop (split knownArg 44)) := by
  obtain ⟨h1, h2⟩ := foldl_set_known_step knownArgs (List.replicate 5 42) (by simp)
  refine ⟨h1, ?_, ?_, fun _ => rfl⟩
  · intro d hd1 hd5
    unfold set_known_loop last_known_letter
    rw [h2 d hd1 hd5]
    cases hL : (knownArgs.filter (known_token d)).getLast? with
    | some arg => rfl
    | none =>
      simp only []
      rw [List.getD_eq_getElem?_getD, List.getElem?_replicate]
      have : d - 1 < 5 := by omega
      simp [this]
  · intro kp arg h
    rcases set_known_step_cases kp arg with ⟨h', -⟩ | ⟨d, hd1, hd5, ht, -⟩
    · exact h'
    · rw [h d hd1 hd5] at ht
      exact absurd ht Bool.false_ne_true

/-- The parser of the bitset program on `-known 3o,1a,9z,x,3Q,10a`: `a` at
position 1, the later `Q` at position 3, the other tokens skipped. -/
theorem set_known_positions_example :
    set_known_positions (codes "3o,1a,9z,x,3Q,10a") = codes "a*Q**" := by decide

/-! ## The per-line check of the bitset program -/

theorem get?_eq_some_getD {l : List Nat} {i : Nat} (h : i < l.length) :
    l.get? i = some (l.getD i 0) := by
  rw [List.get?_eq_getElem?, List.getElem?_eq_getElem h, List.getD_eq_getElem l 0 h]

theorem isalpha_tolower_bounds (c : Nat) (h : isalpha (tolower c) = true) :
    97 ≤ tolower c ∧ tolower c ≤ 122 := by
  have hb := isalpha_bounds h
  unfold tolower at hb ⊢
  split_ifs at hb ⊢ with h1
  · omega
  · rcases hb with hb | hb
    · exact absurd hb h1
    · exact hb

theorem letter_index_lt (c : Nat) (h : 97 ≤ c ∧ c ≤ 122) : (c + 2 ^ 64 - 97) % 2 ^ 64 < 26 := by
  have e : c + 2 ^ 64 - 97 = (c - 97) + 2 ^ 64 := by omega
  rw [e, Nat.add_mod_right, Nat.mod_eq_of_lt (by omega)]
  omega

theorem set_scan_loop_some (excl req : Nat) (known line : List Nat) (hk : known.length = 5)
    (hl : line.length = 5) (hlow : ∀ c ∈ line, isalpha c = true → 97 ≤ c ∧ c ≤ 122) :
    ∀ (fuel i n : Nat), i + fuel ≤ 5 →
      ∃ r, set_scan_loop excl req known line fuel i n = some r ∧
        ((∃ j, i ≤ j ∧ j < i + fuel ∧ isalpha (line.getD j 0) = false) → r.1 = false) := by
  intro fuel
  induction fuel with
  | zero =>
    intro i n _
    refine ⟨(true, n), rfl, ?_⟩
    rintro ⟨j, h1, h2, -⟩
    omega
  | succ fuel ih =>
    intro i n hi
    have hil : i < line.length := by omega
    have hik : i < known.length := by omega
    rw [set_scan_loop, get?_eq_some_getD hil]
    simp only []
    by_cases ha : isalpha (line.getD i 0) = true
    · have hnot : ¬ ((!isalpha (line.getD i 0)) = true) := by
        rw [ha]
        decide
      rw [if_neg hnot, get?_eq_some_getD hik]
      simp only []
      have hidx := letter_index_lt _ (hlow _ (getD_mem_of_lt hil) ha)
      have hge : ¬ ((line.getD i 0 + 2 ^ 64 - 97) % 2 ^ 64 ≥ 26) := by omega
      split_ifs with hkn hex
      · exact ⟨_, rfl, fun _ => rfl⟩
      · exact ⟨_, rfl, fun _ => rfl⟩
      · obtain ⟨r, hr, hbad⟩ := ih (i + 1) _ (by omega)
        refine ⟨r, hr, ?_⟩
        rintro ⟨j, h1, h2, h3⟩
        have hne : j ≠ i := by
          intro he
          rw [he, ha] at h3
          exact Bool.noConfusion h3
        exact hbad ⟨j, by omega, by omega, h3⟩
      · obtain ⟨r, hr, hbad⟩ := ih (i + 1) _ (by omega)
        refine ⟨r, hr, ?_⟩
        rintro ⟨j, h1, h2, h3⟩
        have hne : j ≠ i := by
          intro he
          rw [he, ha] at h3
          exact Bool.noConfusion h3
        exact hbad ⟨j, by omega, by omega, h3⟩
    · have hnot : (!isalpha (line.getD i 0)) = true := by
        cases hv : isalpha (line.getD i 0)
        · rfl
        · exact absurd hv ha
      rw [if_pos hnot]
      exact ⟨_, rfl, fun _ => rfl⟩

/-- C13: for every input line, every excluded set, required set and known
array (of 5 elements), the per-line check of the bitset program ends without
an exception: the result is `some b`. Every character that passes the
alphabetic test after `tolower` is a lowercase letter, so its bitset index is
below 26; the positions used are below 5, the length of the line and of the
array; and a line that is not 5 alphabetic characters is skipped. -/
theorem set_accepts_never_throws (excl req : Nat) (known line : List Nat)
    (hk : known.length = 5) :
    (∃ b, set_accepts excl req known line = some b) ∧
      (∀ c, isalpha (tolower c) = true → (tolower c + 2 ^ 64 - 97) % 2 ^ 64 < 26) ∧
      ((line.length ≠ 5 ∨ ∃ c ∈ line, isalpha (tolower c) = false) →
        set_accepts excl req known line = some false) := by
  have hidx : ∀ c, isalpha (tolower c) = true → (tolower c + 2 ^ 64 - 97) % 2 ^ 64 < 26 :=
    fun c h => letter_index_lt _ (isalpha_tolower_bounds c h)
  unfold set_accepts
  simp only []
  by_cases hlen : (line.map tolower).length ≠ 5
  · rw [if_pos hlen]
    exact ⟨⟨false, rfl⟩, hidx, fun _ => rfl⟩
  · rw [if_neg hlen]
    have hl : (line.map tolower).length = 5 := by simpa using hlen
    have hlow : ∀ c ∈ line.map tolower, isalpha c = true → 97 ≤ c ∧ c ≤ 122 := by
      intro c hc
      obtain ⟨x, -, rfl⟩ := List.mem_map.1 hc
      exact isalpha_tolower_bounds x
    obtain ⟨r, hr, hbad⟩ := set_scan_loop_some excl req known (line.map tolower) hk hl hlow
      5 0 0 (by omega)
    rw [hr]
    refine ⟨⟨_, rfl⟩, hidx, ?_⟩
    rintro (h | ⟨c, hc, hcalpha⟩)
    · rw [List.length_map] at hl
      exact absurd hl h
    · have hmem : tolower c ∈ line.map tolower := List.mem_map.2 ⟨c, hc, rfl⟩
      obtain ⟨j, hj, hjc⟩ := exists_getD_of_mem hmem
      have := hbad ⟨j, Nat.zero_le _, by omega, by rw [hjc]; exact hcalpha⟩
      simp [this]

/-- C13 on the line `co-op` with nothing excluded, required or pinned: the
check ends and the line is skipped. -/
theorem set_accepts_never_throws_witness :
    set_accepts 0 0 (codes "*****") (codes "co-op") = some false :=
  (set_accepts_never_throws 0 0 (codes "*****") (codes "co-op") (by decide)).2.2
    (Or.inr ⟨45, by decide, by decide⟩)

/-! ## The C program: parsed sets, read loop and `main` -/

theorem alpha_to_mask_lt {c mask : Nat} (h : alpha_to_mask c = some mask) : mask < 2 ^ 26 := by
  unfold alpha_to_mask at h
  split_ifs at h with ha
  have ha' : is_alpha_char c = true := by
    cases hv : is_alpha_char c
    · rw [hv] at ha
      exact absurd rfl ha
    · rfl
  rw [letter_mask_eq ha'] at h
  rw [← Option.some.inj h]
  apply Nat.pow_lt_pow_right (by norm_num)
  rw [is_alpha_char_iff] at ha'
  omega

theorem c_letters_loop_lt (tokens : List (List Nat)) :
    ∀ (letter_set m : Nat), letter_set < 2 ^ 26 → c_letters_loop tokens letter_set = some m →
      m < 2 ^ 26 := by
  induction tokens with
  | nil =>
    intro letter_set m h0 h
    rw [c_letters_loop] at h
    rw [← Option.some.inj h]
    exact h0
  | cons t ts ih =>
    intro letter_set m h0 h
    rw [c_letters_loop] at h
    split_ifs at h with h1
    split at h
    · exact Option.noConfusion h
    · rename_i mask hm
      exact ih _ m (Nat.or_lt_two_pow h0 (alpha_to_mask_lt hm)) h

/-- The masks that `get_letters_from_param` of the C program returns hold bits
of letters only. -/
theorem c_get_letters_lt {param : Option (List Nat)} {m : Nat}
    (h : c_get_letters_from_param param = some m) : m < 2 ^ 26 := by
  unfold c_get_letters_from_param at h
  split at h
  · rw [← Option.some.inj h]
    norm_num
  · exact c_letters_loop_lt _ 0 m (by norm_num) h

theorem set_letter_step_lt (acc : Option Nat) (letter : List Nat)
    (h : ∀ m, acc = some m → m < 2 ^ 26) :
    ∀ m, set_letter_step acc letter = some m → m < 2 ^ 26 := by
  intro m hm
  unfold set_letter_step at hm
  cases acc with
  | none => exact Option.noConfusion hm
  | some a =>
    have ha := h a rfl
    simp only [Option.bind] at hm
    split_ifs at hm with h1 h2 h3
    · rw [← Option.some.inj hm]
      exact ha
    · rw [← Option.some.inj hm]
      apply Nat.or_lt_two_pow ha
      apply Nat.pow_lt_pow_right (by norm_num)
      omega
    · rw [← Option.some.inj hm]
      exact ha

/-- The sets that `get_letters_from_param` of the bitset program returns are
26-bit masks. -/
theorem set_get_letters_lt {param : List Nat} {m : Nat}
    (h : set_get_letters_from_param param = some m) : m < 2 ^ 26 := by
  unfold set_get_letters_from_param at h
  have key : ∀ (tokens : List (List Nat)) (acc : Option Nat),
      (∀ m, acc = some m → m < 2 ^ 26) →
      ∀ m, tokens.foldl set_letter_step acc = some m → m < 2 ^ 26 := by
    intro tokens
    induction tokens with
    | nil => intro acc hacc m hm; exact hacc m hm
    | cons t ts ih =>
      intro acc hacc m hm
      rw [List.foldl_cons] at hm
      exact ih _ (set_letter_step_lt acc t hacc) m hm
  exact key _ (some 0) (by intro m hm; rw [← Option.some.inj hm]; norm_num) m h

/-- C16, evaluated at its failing input: the word file holds the one line
`abcdefgcrane` of 12 characters. The first `fgets` returns the 7 characters
`abcdefg`, the second returns `crane` and the newline; in the second buffer
the newline is at offset 5, so the buffer is scanned as a candidate and, with
`q` excluded, printed. -/
theorem c_read_loop_takes_tail_of_long_line :
    split (codes "abcdefgcrane\n") 10 = [codes "abcdefgcrane"] ∧
      (codes "abcdefgcrane").length = 12 ∧
      fgets_loop (codes "abcdefgcrane\n") [] = [codes "abcdefg", codes "crane\n"] ∧
      strchr_index (codes "crane\n") 10 = some 5 ∧
      c_main (some (codes "q")) none none (codes "abcdefgcrane\n") = some [codes "crane\n"] := by
  decide

theorem c_accepts_false_of_pinned_excluded (excluded required : Nat) (known : List Nat)
    (hpin : ∃ i, i < 5 ∧ known.getD i 0 ≠ 95 ∧ in_mask excluded (known.getD i 0))
    (line_buffer : List Nat) : c_accepts excluded required known line_buffer = false := by
  cases hc : c_accepts excluded required known line_buffer
  · rfl
  · exfalso
    obtain ⟨i, hi, h95, hm⟩ := hpin
    have hok := ((c_accepts_iff excluded required known line_buffer).1 hc).1 i hi
    have heq := hok.2.1 h95
    have hex := hok.2.2
    rw [heq, hm.2] at hex
    exact Bool.noConfusion hex

theorem c_read_loop_nil_of_rejects (excluded required : Nat) (known : List Nat)
    (h : ∀ line_buffer, c_accepts excluded required known line_buffer = false)
    (buffers : List (List Nat)) : c_read_loop excluded required known buffers = [] := by
  induction buffers with
  | nil => rfl
  | cons b bs ih =>
    rw [c_read_loop, h b, ih]
    simp

theorem c_main_eq {excludeParam requireParam knownParam : Option (List Nat)}
    {excluded required : Nat} {known : List Nat} (wordfile : List Nat)
    (he : c_get_letters_from_param excludeParam = some excluded)
    (hr : c_get_letters_from_param requireParam = some required)
    (hk : c_known_letters knownParam = some known)
    (hv : c_validation_fails excluded required = some false) :
    c_main excludeParam requireParam knownParam wordfile =
      some (c_read_loop excluded required known (fgets_loop wordfile [])) := by
  unfold c_validation_fails at hv
  unfold c_main
  rw [he]
  simp only []
  cases h1 : get_population_count excluded with
  | none => rw [h1] at hv; exact Option.noConfusion hv
  | some n1 =>
    rw [h1] at hv
    simp only [] at hv ⊢
    by_cases c1 : n1 ≥ 26
    · rw [if_pos c1] at hv
      exact absurd (Option.some.inj hv) (by decide)
    · rw [if_neg c1] at hv ⊢
      rw [hr]
      simp only []
      cases h2 : get_population_count required with
      | none => rw [h2] at hv; exact Option.noConfusion hv
      | some n2 =>
        rw [h2] at hv
        simp only [] at hv ⊢
        by_cases c2 : n2 > WORDLE_WORD_LEN
        · rw [if_pos c2] at hv
          exact absurd (Option.some.inj hv) (by decide)
        · rw [if_neg c2] at hv ⊢
          by_cases c3 : excluded &&& required ≠ 0
          · rw [if_pos c3] at hv
            exact absurd (Option.some.inj hv) (by decide)
          · rw [if_neg c3, hk]

/-- C20: in the C program, when the parameters are read, the sets pass the
validation, and some pinned letter of the known array is in the excluded set,
the scan accepts no line, whatever the buffer holds, and the program is not
ended by a configuration error: it runs over the word file and prints nothing. -/
theorem c_main_pinned_excluded_prints_nothing
    (excludeParam requireParam knownParam : Option (List Nat)) (wordfile : List Nat)
    (excluded required : Nat) (known : List Nat)
    (he : c_get_letters_from_param excludeParam = some excluded)
    (hr : c_get_letters_from_param requireParam = some required)
    (hk : c_known_letters knownParam = some known)
    (hv : c_validation_fails excluded required = some false)
    (hpin : ∃ i, i < 5 ∧ known.getD i 0 ≠ 95 ∧ in_mask excluded (known.getD i 0)) :
    (∀ line_buffer, c_accepts excluded required known line_buffer = false) ∧
      c_main excludeParam requireParam knownParam wordfile = some [] := by
  have hrej := c_accepts_false_of_pinned_excluded excluded required known hpin
  refine ⟨hrej, ?_⟩
  rw [c_main_eq wordfile he hr hk hv, c_read_loop_nil_of_rejects excluded required known hrej]

/-- C20 on the run with `-exclude o -known 3o` over the lines `abode` and
`crane`: the program ends normally and prints nothing. -/
theorem c_main_pinned_excluded_prints_nothing_witness :
    c_main (some (codes "o")) none (some (codes "3o")) (codes "abode\ncrane\n") = some [] :=
  (c_main_pinned_excluded_prints_nothing (some (codes "o")) none (some (codes "3o"))
    (codes "abode\ncrane\n") (2 ^ 14) 0 (codes "__o__") (by decide) (by decide) (by decide)
    (by decide) ⟨2, by decide, by decide, by decide, by decide⟩).2

/-! ## More on the regex program -/

theorem in_mask_two_pow (k c : Nat) : in_mask (2 ^ k) c ↔ c = 97 + k := by
  unfold in_mask
  rw [Nat.testBit_two_pow, decide_eq_true_eq]
  omega

theorem in_mask_or (a b c : Nat) : in_mask (a ||| b) c ↔ in_mask a c ∨ in_mask b c := by
  unfold in_mask
  rw [Nat.testBit_or, Bool.or_eq_true]
  tauto

/-- C19 for `q` excluded, `a` and `e` required, `c` pinned at position 1, on the
line `crane`: both programs accept. -/
theorem regex_agrees_with_c_scan_on_letters_witness :
    ∃ re, regex_compile (regexString (letters_of_arg (codes "q")) 5 (codes "c****") 1) =
        some re ∧
      (codes "crane" ∈
          filterWordsWithoutIncludedLetters (matching_lines 5 re [codes "crane"]) 5
            (codes "a,e") ↔
        c_accepts (2 ^ 16) (2 ^ 0 ||| 2 ^ 4) (codes "c____") (codes "crane") = true) :=
  regex_agrees_with_c_scan_on_letters (codes "q") (codes "a,e") (codes "1c") (codes "c****") 1
    (2 ^ 16) (2 ^ 0 ||| 2 ^ 4) (codes "c____") (codes "crane") (by decide)
    (by
      intro c
      rw [in_mask_two_pow]
      have e : letters_of_arg (codes "q") = [113] := by decide
      rw [e, List.mem_singleton])
    (by
      intro c
      rw [in_mask_or, in_mask_two_pow, in_mask_two_pow]
      have e : letters_of_arg (codes "a,e") = [97, 101] := by decide
      rw [e]
      simp)
    (by decide) (by decide) (by decide) ⟨by decide, by decide⟩

/-- C18, evaluated at its failing inputs: at word length 6 with a word list
given by `-list` the run is rejected, and at word length 6 without `-list` it
is accepted and runs over the default list. The test at line 145 is
`wordFilePathParam != ""`, the opposite of what its error message says. -/
theorem regex_main_list_test_inverted :
    regex_main 6 (codes "words6.txt") (codes "q") [] [] [codes "border"] = none ∧
      regex_main 6 [] (codes "q") [] [] [codes "border"] = some [codes "border"] ∧
      regex_main 5 (codes "words5.txt") (codes "q") [] [] [codes "crane"] =
        some [codes "crane"] := by
  decide

theorem blocks_span_sum (known : List Nat) :
    ((blocks known).map Block.span).sum = known.length := by
  have h := congrArg List.length (blocks_positions known)
  rw [List.length_flatten, List.map_map] at h
  rw [← h]
  congr 1
  apply List.map_congr_left
  intro b _
  cases b with
  | pinned c => rfl
  | unpinned n => simp [Block.span, Block.positions]

/-- C15: for every word length in 4..11 and every known-position array of the
program, with or without pinned positions, the pattern is `^`, the texts of a
list of items, and `$`, where an item is a pinned letter (span 1) or the letter
group for `n ≥ 1` positions, written without quantifier when `n = 1` and with
`{n}` otherwise (span `n`); the spans of the items sum to the word length.
The compiled pattern has the same items with the same repeat counts. -/
theorem pattern_spans_sum (excludeArg knownArg : List Nat) (wordLength : Nat)
    (known : List Nat) (numKnown : Nat) (hwl : 4 ≤ wordLength ∧ wordLength ≤ 11)
    (hk : known_positions wordLength knownArg = some (known, numKnown)) :
    ∃ items : List Block,
      regexString (letters_of_arg excludeArg) wordLength known numKnown =
        codes "^" ++ (items.map (block_text (letterGroup (letters_of_arg excludeArg)))).flatten ++
          codes "$" ∧
      (∀ n, Block.unpinned n ∈ items → 1 ≤ n) ∧
      (items.map Block.span).sum = wordLength ∧
      regex_compile (regexString (letters_of_arg excludeArg) wordLength known numKnown) =
        some (⟨Atom.bol, 1⟩ :: items.map (block_piece (letters_of_arg excludeArg)) ++
          [⟨Atom.eol, 1⟩]) ∧
      (∀ b ∈ items, (block_piece (letters_of_arg excludeArg) b).count = b.span) := by
  obtain ⟨hlen, hknown, hnum⟩ := known_positions_spec hk
  obtain ⟨hS, halpha⟩ := letters_of_arg_spec excludeArg
  have hcount : ∀ b : Block, (block_piece (letters_of_arg excludeArg) b).count = b.span := by
    intro b
    cases b <;> rfl
  by_cases h0 : numKnown = 0
  · refine ⟨[Block.unpinned wordLength], ?_, ?_, ?_, ?_, fun b _ => hcount b⟩
    · unfold regexString build_regexString
      simp only [if_pos h0, List.map_cons, List.map_nil, List.flatten_cons, List.flatten_nil,
        List.append_nil, block_text, run_quantifier]
      rw [if_pos (by omega)]
    · intro n hn
      rw [List.mem_singleton] at hn
      injection hn with hn
      omega
    · simp [Block.span]
    · unfold regexString build_regexString
      simp only [if_pos h0]
      apply compile_anchored _ [⟨group_atom (letters_of_arg excludeArg), wordLength⟩] false
      rw [parse_from_append, parse_group _ hS halpha, parse_quantifier wordLength hwl.2]
      rfl
  · have hw := blocks_wellformed known
    obtain ⟨q', hq⟩ := parse_blocks (letters_of_arg excludeArg) hS halpha (blocks known)
      (fun n hn => ⟨hw.2.1 n hn, by have := block_span_le known n hn; omega⟩)
      (fun c hc => by
        rcases hknown c (pinned_mem_known known c hc) with h | h
        · exact absurd h (hw.2.2 c hc)
        · exact h)
      [⟨Atom.bol, 1⟩] false
    have htext : regexString (letters_of_arg excludeArg) wordLength known numKnown =
        codes "^" ++
          ((blocks known).map (block_text (letterGroup (letters_of_arg excludeArg)))).flatten ++
          codes "$" := by
      unfold regexString
      exact build_regexString_eq_blocks _ _ _ _ (by omega) (by omega)
    refine ⟨blocks known, htext, hw.2.1, ?_, ?_, fun b _ => hcount b⟩
    · rw [blocks_span_sum, hlen]
    · rw [htext]
      exact compile_anchored _ _ q' hq

/-- C15 at word length 5 with `-known 3o` and `q` excluded: the items are the
group for 2 positions, `o`, the group for 2 positions, and 2 + 1 + 2 = 5. -/
theorem pattern_spans_sum_witness :
    ∃ items : List Block,
      regexString (letters_of_arg (codes "q")) 5 (codes "**o**") 1 =
        codes "^" ++ (items.map (block_text (letterGroup (letters_of_arg (codes "q"))))).flatten ++
          codes "$" ∧
      (∀ n, Block.unpinned n ∈ items → 1 ≤ n) ∧
      (items.map Block.span).sum = 5 ∧
      regex_compile (regexString (letters_of_arg (codes "q")) 5 (codes "**o**") 1) =
        some (⟨Atom.bol, 1⟩ :: items.map (block_piece (letters_of_arg (codes "q"))) ++
          [⟨Atom.eol, 1⟩]) ∧
      (∀ b ∈ items, (block_piece (letters_of_arg (codes "q")) b).count = b.span) :=
  pattern_spans_sum (codes "q") (codes "3o") 5 (codes "**o**") 1 ⟨by decide, by decide⟩
    (by decide)

/-! ## Tightening the constraints of the C program -/

theorem c_accepts_of_tighter (excluded excluded' required required' : Nat)
    (known known' : List Nat) (he : mask_subset excluded excluded')
    (hr : mask_subset required required') (hk : known_refines known known')
    (line_buffer : List Nat)
    (h : c_accepts excluded' required' known' line_buffer = true) :
    c_accepts excluded required known line_buffer = true := by
  rw [c_accepts_iff] at h ⊢
  obtain ⟨hpos, hreq⟩ := h
  constructor
  · intro i hi
    obtain ⟨ha, hkn, hex⟩ := hpos i hi
    refine ⟨ha, ?_, ?_⟩
    · intro h95
      have e := hk i hi h95
      have h95' : known'.getD i 0 ≠ 95 := by
        rw [e]
        exact h95
      rw [hkn h95', e]
    · cases hb : excluded.testBit (line_buffer.getD i 0 - 97)
      · rfl
      · have := he _ hb
        rw [hex] at this
        exact Bool.noConfusion this
  · intro b hb
    exact hreq b (hr b hb)

theorem c_read_loop_sublist_of_tighter (excluded excluded' required required' : Nat)
    (known known' : List Nat) (he : mask_subset excluded excluded')
    (hr : mask_subset required required') (hk : known_refines known known')
    (buffers : List (List Nat)) :
    (c_read_loop excluded' required' known' buffers).Sublist
      (c_read_loop excluded required known buffers) := by
  induction buffers with
  | nil => exact List.Sublist.slnil
  | cons b bs ih =>
    rw [c_read_loop, c_read_loop]
    by_cases hn : strchr_index b 10 ≠ some WORDLE_WORD_LEN
    · rw [if_pos hn, if_pos hn]
      exact ih
    · rw [if_neg hn, if_neg hn]
      by_cases h' : c_accepts excluded' required' known' b = true
      · have h := c_accepts_of_tighter excluded excluded' required required' known known'
          he hr hk b h'
        rw [if_pos h', if_pos h]
        exact List.Sublist.cons₂ b ih
      · rw [if_neg h']
        by_cases h : c_accepts excluded required known b = true
        · rw [if_pos h]
          exact List.Sublist.cons b ih
        · rw [if_neg h]
          exact ih

/-- C21: in the C program, tightening the constraints never adds a match. When
`excluded` is a subset of `excluded'`, `required` is a subset of `required'`
and `known'` pins every position that `known` pins to the same letter, every
buffer the scan accepts under `(excluded', required', known')` is accepted
under `(excluded, required, known)`, and over any word file what the read loop
prints under the tighter constraints is a sublist of what it prints under the
looser ones. -/
theorem c_scan_tightening_adds_no_match (excluded excluded' required required' : Nat)
    (known known' : List Nat) (he : mask_subset excluded excluded')
    (hr : mask_subset required required') (hk : known_refines known known') :
    (∀ line_buffer, c_accepts excluded' required' known' line_buffer = true →
      c_accepts excluded required known line_buffer = true) ∧
    (∀ wordfile : List Nat,
      (c_read_loop excluded' required' known' (fgets_loop wordfile [])).Sublist
        (c_read_loop excluded required known (fgets_loop wordfile []))) := by
  constructor
  · intro line_buffer h
    exact c_accepts_of_tighter excluded excluded' required required' known known' he hr hk
      line_buffer h
  · intro wordfile
    exact c_read_loop_sublist_of_tighter excluded excluded' required required' known known'
      he hr hk _

/-- C21 from `q` excluded, `a` required and `c` pinned at position 1 to `q`, `z`
excluded, `a`, `e` required and `c`, `e` pinned at positions 1 and 5: `crane` is
accepted under the tighter constraints, hence under the looser ones. -/
theorem c_scan_tightening_adds_no_match_witness :
    c_accepts (2 ^ 16 ||| 2 ^ 25) (2 ^ 0 ||| 2 ^ 4) (codes "c___e") (codes "crane") = true ∧
      c_accepts (2 ^ 16) (2 ^ 0) (codes "c____") (codes "crane") = true :=
  ⟨by decide,
   (c_scan_tightening_adds_no_match (2 ^ 16) (2 ^ 16 ||| 2 ^ 25) (2 ^ 0) (2 ^ 0 ||| 2 ^ 4)
      (codes "c____") (codes "c___e")
      (by
        intro i h
        rw [Nat.testBit_or, h]
        rfl)
      (by
        intro i h
        rw [Nat.testBit_or, h]
        rfl)
      (by
        intro i hi h95
        have hi' : i = 0 ∨ i = 1 ∨ i = 2 ∨ i = 3 ∨ i = 4 := by omega
        rcases hi' with rfl | rfl | rfl | rfl | rfl
        · decide
        all_goals exact absurd (by decide) h95)).1
    (codes "crane") (by decide)⟩

end Wordle
